import Mathlib

/-
Verification of the agent-dash terminal dashboard core.

Shallow embedding of the Rust sources:
  * src/session.rs   : status parsing, visible-item model, selection resolution
  * src/selection.rs : pointer selection, text extraction, highlight splitting
  * src/app.rs       : dispatcher state transitions (unread tracking, kill/create)
  * src/pipe_pane.rs : preview watcher select-loop, modelled as a step relation

Machine integers (u16/u64/usize) are modelled as Nat; the dashboard never
approaches the 2^16 / 2^64 wrap points on the quantities involved (line
lengths, counters), and Rust's saturating_sub corresponds to Nat subtraction.
Strings are modelled as Lean String or as List Char where the Rust code
operates on char iterators.
-/

namespace AgentDash

/-- Status of an agent pane, from src/session.rs `SessionStatus`. -/
inductive SessionStatus where
  | active
  | idle
deriving DecidableEq, Repr

/-- An agent session record, from src/session.rs `ClaudeSession`. -/
structure ClaudeSession where
  pane_id : String
  pane_target : String
  title : String
  session_name : String
  status : SessionStatus
deriving DecidableEq, Repr

/-- Lower bound of the designated title code-point range (src/session.rs `BRAILLE_START`). -/
def BRAILLE_START : Nat := 0x2800

/-- Upper bound of the designated title code-point range (src/session.rs `BRAILLE_END`). -/
def BRAILLE_END : Nat := 0x28FF

/-- src/session.rs `parse_session_status`: status is derived from the leading
character of the pane title.  `pane_title.chars().next()` is `t.data.head?`. -/
def parse_session_status (pane_title : String) : SessionStatus :=
  match pane_title.data.head? with
  | some ch =>
      if BRAILLE_START ≤ ch.toNat ∧ ch.toNat ≤ BRAILLE_END then
        SessionStatus.active
      else
        SessionStatus.idle
  | none => SessionStatus.idle

/-- src/session.rs `VisibleItem`: either a group header or a session row. -/
inductive VisibleItem where
  | groupHeader (session_name display_name : String) (session_count : Nat)
      (has_active has_unread is_collapsed : Bool)
  | session (session : ClaudeSession) (group_session_name display_name : String)
      (is_unread : Bool)
deriving DecidableEq, Repr

/-- The predicate used by `resolve_selected_index` when the old item is a
session row: a new item matches when it is a session row with the same pane id. -/
def sessionMatches (pid : String) : VisibleItem → Bool
  | .session s _ _ _ => s.pane_id == pid
  | _ => false

/-- The predicate used by `resolve_selected_index` when the old item is a
group header: a new item matches when it is a header with the same name. -/
def headerMatches (name : String) : VisibleItem → Bool
  | .groupHeader n _ _ _ _ _ => n == name
  | _ => false

/-- Rust's `Iterator::position`: index of the first element satisfying `p`. -/
def listPosition (p : α → Bool) : List α → Option Nat
  | [] => none
  | a :: as =>
      if p a then some 0
      else
        match listPosition p as with
        | some j => some (j + 1)
        | none => none

/-- The fall-through tail of `resolve_selected_index`: 0 on an empty new
list, otherwise the old index clamped into the new list's range. -/
def fallbackIndex (new_items : List VisibleItem) (old_index : Nat) : Nat :=
  if new_items.isEmpty then 0 else min old_index (new_items.length - 1)

/-- src/session.rs `resolve_selected_index`.  The early `return found` paths
become the `some found` match arms; the shared tail is `fallbackIndex`. -/
def resolve_selected_index (new_items old_items : List VisibleItem)
    (old_index : Nat) : Nat :=
  match old_items.get? old_index with
  | some (.session s _ _ _) =>
      match listPosition (sessionMatches s.pane_id) new_items with
      | some found => found
      | none => fallbackIndex new_items old_index
  | some (.groupHeader name _ _ _ _ _) =>
      match listPosition (headerMatches name) new_items with
      | some found => found
      | none => fallbackIndex new_items old_index
  | none => fallbackIndex new_items old_index

/-! ## Selection / clipboard engine (src/selection.rs) -/

/-- Minimal model of the ratatui colours used by src/selection.rs. -/
inductive TermColor where
  | white
  | rgb (r g b : Nat)
deriving DecidableEq, Repr

/-- Minimal model of a ratatui `Style`: the fields src/selection.rs touches. -/
structure TermStyle where
  fg : Option TermColor := none
  bg : Option TermColor := none
deriving DecidableEq, Repr

/-- ratatui `Style::patch`: fields set in `other` override `self`. -/
def TermStyle.patch (s other : TermStyle) : TermStyle :=
  { fg := match other.fg with | some c => some c | none => s.fg
    bg := match other.bg with | some c => some c | none => s.bg }

/-- src/selection.rs `SELECTION_BG`. -/
def SELECTION_BG : TermStyle :=
  { fg := some TermColor.white, bg := some (TermColor.rgb 0x44 0x44 0x88) }

/-- A ratatui `Span`: a styled run of characters.  Content is a char list,
matching the Rust code's use of `chars()` for all slicing. -/
structure TermSpan where
  content : List Char
  style : TermStyle
deriving DecidableEq, Repr

/-- A ratatui `Line` is its list of spans. -/
abbrev TermLine := List TermSpan

/-- src/selection.rs `ContentPosition` (row and col are u16, modelled as Nat). -/
structure ContentPosition where
  row : Nat
  col : Nat
deriving DecidableEq, Repr

/-- src/selection.rs `PreviewSelection`. -/
structure PreviewSelection where
  anchor : ContentPosition
  cursor : ContentPosition
  is_dragging : Bool
deriving DecidableEq, Repr

/-- src/selection.rs `ordered_bounds`: normalize anchor/cursor into
(start_row, start_col, end_row, end_col) compared by row then column. -/
def ordered_bounds (selection : PreviewSelection) : Nat × Nat × Nat × Nat :=
  let anchor_first := selection.anchor.row < selection.cursor.row
      ∨ (selection.anchor.row = selection.cursor.row
          ∧ selection.anchor.col ≤ selection.cursor.col)
  if anchor_first then
    (selection.anchor.row, selection.anchor.col, selection.cursor.row, selection.cursor.col)
  else
    (selection.cursor.row, selection.cursor.col, selection.anchor.row, selection.anchor.col)

/-- src/selection.rs `chars_slice`: `s.chars().skip(start).take(end - start)`. -/
def chars_slice (s : List Char) (start stop : Nat) : List Char :=
  (s.drop start).take (stop - start)

/-- Plain text of a line: the concatenation of its spans' contents
(`line.spans.iter().map(|s| s.content.as_ref()).collect()`). -/
def plainLine (line : TermLine) : List Char :=
  (line.map TermSpan.content).flatten

/-- The per-row segment taken by `extract_selected_text`'s loop body.  Note
that the row is compared against the UNCLAMPED start/end rows, exactly as in
the source. -/
def segmentFor (plain : List Char) (row start_row start_col end_row end_col : Nat) :
    List Char :=
  if row = start_row ∧ row = end_row then
    (plain.drop start_col).take (end_col - start_col)
  else if row = start_row then
    plain.drop start_col
  else if row = end_row then
    plain.take end_col
  else
    plain

/-- Collect the results of a fallible per-element computation; `none` as soon
as one element fails.  Models a loop whose body may panic (out-of-bounds
indexing) as an `Option`. -/
def optionTraverse (f : α → Option β) : List α → Option (List β)
  | [] => some []
  | a :: as =>
      match f a, optionTraverse f as with
      | some b, some bs => some (b :: bs)
      | _, _ => none

/-- Rust `result.join("\n")`. -/
def joinLines (segments : List (List Char)) : List Char :=
  (segments.intersperse ['\n']).flatten

/-- src/selection.rs `extract_selected_text`.  The Rust code indexes
`text.lines[row]` directly; we model indexing with `get?` so that the (never
exercised when the text is nonempty) out-of-bounds case surfaces as `none`
instead of a panic.  `line_count - 1` is Nat subtraction, which is exactly
`saturating_sub(1)`. -/
def extract_selected_text (lines : List TermLine) (selection : PreviewSelection) :
    Option (List Char) :=
  let b := ordered_bounds selection
  let start_row := b.1
  let start_col := b.2.1
  let end_row := b.2.2.1
  let end_col := b.2.2.2
  let line_count := lines.length
  let clamped_start := min start_row (line_count - 1)
  let clamped_end := min end_row (line_count - 1)
  let rows := List.range' clamped_start (clamped_end + 1 - clamped_start)
  (optionTraverse (fun row =>
      (lines.get? row).map (fun line =>
        segmentFor (plainLine line) row start_row start_col end_row end_col)) rows).map
    joinLines

/-- src/selection.rs `highlight_spans_in_range`, body of the while loop: the
transformation applied to the single span starting at column `col`.  Branch 1:
the span is entirely outside the selection; branch 2: entirely inside; branch
3: straddles a boundary and is split into up to three parts. -/
def highlightSpanAt (col sel_start sel_end : Nat) (sp : TermSpan) : List TermSpan :=
  let span_char_count := sp.content.length
  let span_start := col
  let span_end := col + span_char_count
  if span_end ≤ sel_start ∨ span_start ≥ sel_end then
    [sp]
  else if span_start ≥ sel_start ∧ span_end ≤ sel_end then
    [{ sp with style := sp.style.patch SELECTION_BG }]
  else
    let overlap_start := max sel_start span_start - span_start
    let overlap_end := min sel_end span_end - span_start
    (if 0 < overlap_start then
        [TermSpan.mk (chars_slice sp.content 0 overlap_start) sp.style]
      else []) ++
    [TermSpan.mk (chars_slice sp.content overlap_start overlap_end)
        (sp.style.patch SELECTION_BG)] ++
    (if overlap_end < span_char_count then
        [TermSpan.mk (chars_slice sp.content overlap_end span_char_count) sp.style]
      else [])

/-- The while loop of `highlight_spans_in_range`, from a given running column.
The loop advances `col` by the ORIGINAL span's char count and skips past the
spliced-in replacement parts (`i += parts_len`), so it is exactly this
recursion. -/
def highlightFrom (col sel_start sel_end : Nat) : List TermSpan → List TermSpan
  | [] => []
  | sp :: rest =>
      highlightSpanAt col sel_start sel_end sp
        ++ highlightFrom (col + sp.content.length) sel_start sel_end rest

/-- src/selection.rs `highlight_spans_in_range` (col starts at 0). -/
def highlight_spans_in_range (spans : List TermSpan) (sel_start sel_end : Nat) :
    List TermSpan :=
  highlightFrom 0 sel_start sel_end spans

/-- src/selection.rs `apply_selection_highlight`: for each content row of the
selection that is inside the visible window and the text, splice highlights
into that line with the selection's column range for that row.  Interior rows
use `u16::MAX` as the open right end; we keep that sentinel value. -/
def U16_MAX : Nat := 65535

/-- One row's selection column range in `apply_selection_highlight`. -/
def rowSelRange (content_row start_row start_col end_row end_col : Nat) : Nat × Nat :=
  (if content_row = start_row then start_col else 0,
   if content_row = end_row then end_col else U16_MAX)

/-- src/selection.rs `apply_selection_highlight` as a pure function on the
list of lines. -/
def apply_selection_highlight (lines : List TermLine) (selection : PreviewSelection)
    (scroll_offset visible_height : Nat) : List TermLine :=
  let b := ordered_bounds selection
  let start_row := b.1
  let start_col := b.2.1
  let end_row := b.2.2.1
  let end_col := b.2.2.2
  let visible_start := scroll_offset
  let visible_end := scroll_offset + visible_height
  lines.mapIdx (fun content_row line =>
    if start_row ≤ content_row ∧ content_row ≤ end_row
        ∧ visible_start ≤ content_row ∧ content_row < visible_end then
      let r := rowSelRange content_row start_row start_col end_row end_col
      highlight_spans_in_range line r.1 r.2
    else
      line)

/-! ## Dispatcher state transitions (src/app.rs)

`HashSet<String>` is modelled as a duplicate-free-by-construction list with
`setInsert`/`setRemove`/retain-as-filter; `HashMap<String, V>` as an
association list whose `insert` replaces any previous binding and whose
lookup takes the first (hence only) binding of a key. -/

/-- HashSet::insert. -/
def setInsert (s : List String) (x : String) : List String :=
  if x ∈ s then s else x :: s

/-- HashSet::remove. -/
def setRemove (s : List String) (x : String) : List String :=
  s.filter (fun y => y ≠ x)

/-- HashMap::get for a status map. -/
def statusGet (m : List (String × SessionStatus)) (k : String) : Option SessionStatus :=
  (m.find? (fun e => e.1 = k)).map (fun e => e.2)

/-- HashMap::insert for a status map (replaces any previous binding). -/
def statusInsert (m : List (String × SessionStatus)) (k : String) (v : SessionStatus) :
    List (String × SessionStatus) :=
  (k, v) :: m.filter (fun e => e.1 ≠ k)

/-- HashMap::remove for a status map. -/
def statusRemove (m : List (String × SessionStatus)) (k : String) :
    List (String × SessionStatus) :=
  m.filter (fun e => e.1 ≠ k)

/-- HashMap::get for the unread-order map. -/
def orderGet (m : List (String × Nat)) (k : String) : Option Nat :=
  (m.find? (fun e => e.1 = k)).map (fun e => e.2)

/-- HashMap::insert for the unread-order map. -/
def orderInsert (m : List (String × Nat)) (k : String) (v : Nat) :
    List (String × Nat) :=
  (k, v) :: m.filter (fun e => e.1 ≠ k)

/-- HashMap::remove for the unread-order map. -/
def orderRemove (m : List (String × Nat)) (k : String) : List (String × Nat) :=
  m.filter (fun e => e.1 ≠ k)

/-- The dispatcher state fields involved in unread tracking (src/app.rs
`AppState`, restricted to the fields the C1/C2 updates read or write). -/
structure AppModel where
  sessions : List ClaudeSession
  unread_pane_ids : List String
  prev_status_map : List (String × SessionStatus)
  unread_order : List (String × Nat)
  unread_counter : Nat
deriving DecidableEq, Repr

/-- Does this snapshot session trigger the Active→Idle unread insertion? -/
def transitionsToUnread (prev : List (String × SessionStatus)) (s : ClaudeSession) :
    Bool :=
  statusGet prev s.pane_id = some SessionStatus.active
    ∧ s.status = SessionStatus.idle

/-- The `for session in &sessions` loop of `handle_message`'s
`SessionsUpdated` arm: accumulates (next_unread, unread_order, unread_counter). -/
def applyStatusTransitions (prev : List (String × SessionStatus)) :
    List ClaudeSession → List String × List (String × Nat) × Nat →
      List String × List (String × Nat) × Nat
  | [], acc => acc
  | s :: rest, (unread, order, counter) =>
      if transitionsToUnread prev s then
        applyStatusTransitions prev rest
          (setInsert unread s.pane_id, orderInsert order s.pane_id (counter + 1),
            counter + 1)
      else
        applyStatusTransitions prev rest (unread, order, counter)

/-- src/app.rs `handle_message`, `Message::SessionsUpdated` arm (the unread
bookkeeping; display names and prompt states do not interact with it). -/
def sessionsUpdated (st : AppModel) (sessions : List ClaudeSession) : AppModel :=
  let current_pane_ids := sessions.map ClaudeSession.pane_id
  let acc := applyStatusTransitions st.prev_status_map sessions
    (st.unread_pane_ids, st.unread_order, st.unread_counter)
  let next_unread := acc.1.filter (fun id => id ∈ current_pane_ids)
  let next_order := acc.2.1.filter (fun e => e.1 ∈ current_pane_ids)
  let next_status_map := sessions.foldl
    (fun m s => statusInsert m s.pane_id s.status) []
  { sessions := sessions
    unread_pane_ids := next_unread
    prev_status_map := next_status_map
    unread_order := next_order
    unread_counter := acc.2.2 }

/-- src/app.rs `process_action`, `Action::KillPane` arm (the state mutation;
the external `tmux.kill_pane` call and index resolution do not touch unread
state beyond this). -/
def killPane (st : AppModel) (target : String) : AppModel :=
  let st1 :=
    match st.sessions.find? (fun s => s.pane_target = target) with
    | some removed =>
        { st with
          prev_status_map := statusRemove st.prev_status_map removed.pane_id
          unread_pane_ids := setRemove st.unread_pane_ids removed.pane_id
          unread_order := orderRemove st.unread_order removed.pane_id }
    | none => st
  { st1 with sessions := st1.sessions.filter (fun s => s.pane_target ≠ target) }

/-- src/app.rs `process_action`, `Action::CreateSession` arm (state mutation
on success: record the new session's status and append it). -/
def createSession (st : AppModel) (s : ClaudeSession) : AppModel :=
  { st with
    prev_status_map := statusInsert st.prev_status_map s.pane_id s.status
    sessions := st.sessions ++ [s] }

/-- src/app.rs mark-read (keys 'r'/'o'): drop the pane from the unread set
and order map. -/
def markRead (st : AppModel) (pane_id : String) : AppModel :=
  { st with
    unread_pane_ids := setRemove st.unread_pane_ids pane_id
    unread_order := orderRemove st.unread_order pane_id }

/-- One dispatcher update: a poller snapshot message or a user action. -/
inductive DispatcherUpdate where
  | snapshot (sessions : List ClaudeSession)
  | kill (target : String)
  | create (s : ClaudeSession)
  | markRead (pane_id : String)
deriving DecidableEq, Repr

/-- Apply one dispatcher update to the model state. -/
def applyUpdate (st : AppModel) : DispatcherUpdate → AppModel
  | .snapshot sessions => sessionsUpdated st sessions
  | .kill target => killPane st target
  | .create s => createSession st s
  | .markRead pane_id => markRead st pane_id

/-- Apply a sequence of dispatcher updates. -/
def applyUpdates (st : AppModel) (us : List DispatcherUpdate) : AppModel :=
  us.foldl applyUpdate st

/-- C1's invariant: every unread pane id belongs to the current session list. -/
def UnreadSubset (st : AppModel) : Prop :=
  ∀ id ∈ st.unread_pane_ids, id ∈ st.sessions.map ClaudeSession.pane_id

instance (st : AppModel) : Decidable (UnreadSubset st) := by
  unfold UnreadSubset; infer_instance

/-- No two sessions share a pane target (true of real tmux data: pane targets
address distinct panes). -/
def nodupTargets (sessions : List ClaudeSession) : Prop :=
  (sessions.map ClaudeSession.pane_target).Nodup

instance (sessions : List ClaudeSession) : Decidable (nodupTargets sessions) := by
  unfold nodupTargets; infer_instance

/-- Well-formedness of one update relative to the current state: snapshots
carry pairwise-distinct pane targets, and a created pane's target is fresh.
Kill and mark-read are always well-formed. -/
def updateOk (st : AppModel) : DispatcherUpdate → Prop
  | .snapshot sessions => nodupTargets sessions
  | .create s => s.pane_target ∉ st.sessions.map ClaudeSession.pane_target
  | .kill _ => True
  | .markRead _ => True

instance (st : AppModel) (u : DispatcherUpdate) : Decidable (updateOk st u) := by
  unfold updateOk; cases u <;> infer_instance

/-- Well-formedness of a run of updates from a state. -/
def runOk : AppModel → List DispatcherUpdate → Prop
  | _, [] => True
  | st, u :: us => updateOk st u ∧ runOk (applyUpdate st u) us

instance : (st : AppModel) → (us : List DispatcherUpdate) → Decidable (runOk st us)
  | _, [] => by unfold runOk; infer_instance
  | st, u :: us =>
      have : Decidable (runOk (applyUpdate st u) us) := instDecidableRunOk _ _
      by unfold runOk; infer_instance

/-- Ghost observer of `handle_message`'s transition loop: the order values it
assigns (`counter + 1` after each increment), in assignment order.  Mirrors
the counter updates of `applyStatusTransitions` without the maps. -/
def foldAssigned (prev : List (String × SessionStatus)) :
    List ClaudeSession → Nat → List Nat
  | [], _ => []
  | s :: rest, counter =>
      if transitionsToUnread prev s then
        (counter + 1) :: foldAssigned prev rest (counter + 1)
      else
        foldAssigned prev rest counter

/-- The order values one dispatcher update assigns: snapshots assign via the
transition loop; kill, create and mark-read assign none. -/
def updateAssigned (st : AppModel) : DispatcherUpdate → List Nat
  | .snapshot sessions => foldAssigned st.prev_status_map sessions st.unread_counter
  | .kill _ => []
  | .create _ => []
  | .markRead _ => []

/-- All order values assigned over a run of dispatcher updates, in assignment
order. -/
def runAssigned : AppModel → List DispatcherUpdate → List Nat
  | _, [] => []
  | st, u :: us => updateAssigned st u ++ runAssigned (applyUpdate st u) us

/-! ## Preview watcher (src/pipe_pane.rs `spawn_preview_task`)

The `tokio::select!` loop is modelled as a step relation: each event names
the branch that fired.  Capture results are oracle inputs (`Option String`,
`none` = the fallible tmux call failed).  External effects that publish
nothing (stop_pipe_pane, the FIFO drain, start_pipe_pane) have no output;
the channel sends are the `published` outputs and each capture call is a
`captured` output.  Times are in milliseconds. -/

/-- src/pipe_pane.rs `debounce_duration` (50 ms). -/
def debounce_duration : Nat := 50

/-- src/pipe_pane.rs `fallback_interval` (2 s). -/
def fallback_interval : Nat := 2000

/-- The loop-carried state of `spawn_preview_task`. -/
structure WatcherState where
  previous_content : String
  current_target : Option String
  debounce : Option Nat
  fallback_deadline : Nat
deriving DecidableEq, Repr

/-- One firing of a `select!` branch.  `fifoData` is a successful nonempty
read from the pipe; `fifoIdle` covers the `Ok(0)`/`Err` arms which only
sleep.  `debounceFired` and `fallbackFired` carry the capture oracle. -/
inductive WatcherEvent where
  | targetChanged (new_target : Option String) (capture_result : Option String) (now : Nat)
  | fifoData (now : Nat)
  | fifoIdle
  | debounceFired (capture_result : Option String) (now : Nat)
  | fallbackFired (capture_result : Option String) (now : Nat)
deriving DecidableEq, Repr

/-- Observable outputs of one step: tmux capture calls and channel publishes. -/
inductive WatcherOutput where
  | captured (target : String)
  | published (content : String)
deriving DecidableEq, Repr

/-- The capture / compare / publish tail shared by the debounce and fallback
branches: capture, and publish only if the content differs from the last
published value. -/
def captureAndPublish (st : WatcherState) (capture_result : Option String) :
    WatcherState × List WatcherOutput :=
  match st.current_target with
  | none => (st, [])
  | some target =>
      match capture_result with
      | none => (st, [WatcherOutput.captured target])
      | some content =>
          if content = st.previous_content then
            (st, [WatcherOutput.captured target])
          else
            ({ st with previous_content := content },
              [WatcherOutput.captured target, WatcherOutput.published content])

/-- One iteration of the `spawn_preview_task` loop. -/
def watcher_step (st : WatcherState) : WatcherEvent → WatcherState × List WatcherOutput
  | .targetChanged new_target capture_result now =>
      -- stop old pipe-pane; drain the FIFO (discard, no publish)
      let st1 := { st with current_target := new_target, previous_content := "" }
      match new_target with
      | some target =>
          let r :=
            match capture_result with
            | some content =>
                ({ st1 with previous_content := content },
                  [WatcherOutput.captured target, WatcherOutput.published content])
            | none => (st1, [WatcherOutput.captured target])
          -- start pipe-pane on the new target
          ({ r.1 with debounce := none, fallback_deadline := now + fallback_interval },
            r.2)
      | none =>
          ({ st1 with debounce := none, fallback_deadline := now + fallback_interval },
            [])
  | .fifoData now =>
      ({ st with debounce := some (now + debounce_duration) }, [])
  | .fifoIdle => (st, [])
  | .debounceFired capture_result now =>
      -- branch is guarded by `if debounce.is_some()`
      match st.debounce with
      | none => (st, [])
      | some _ =>
          let r := captureAndPublish st capture_result
          ({ r.1 with debounce := none, fallback_deadline := now + fallback_interval },
            r.2)
  | .fallbackFired capture_result now =>
      let r := captureAndPublish st capture_result
      ({ r.1 with fallback_deadline := now + fallback_interval }, r.2)

/-- Run the watcher over a list of events, collecting all outputs in order. -/
def watcher_run (st : WatcherState) : List WatcherEvent → WatcherState × List WatcherOutput
  | [] => (st, [])
  | e :: es =>
      let r := watcher_step st e
      let rest := watcher_run r.1 es
      (rest.1, r.2 ++ rest.2)

/-! ## Pane classification (session poller)

Modelled from the spec: the current application's tmux module (the session
poller's process-tree classifier) is not among the provided sources - only
the legacy recursive `check_for_claude_process` in apps/cli-rs/src/tmux.rs
is.  Per the spec, §4.2 and the design notes, the classifier examines the
pane's process descendant tree with an ITERATIVE breadth-first scan over an
explicit work queue, looking for a designated executable name. -/

/-- A process with its executable name and child processes. -/
inductive ProcTree where
  | node (pid : String) (comm : String) (children : List ProcTree)

/-- Modelled from the spec: iterative breadth-first scan of the descendant
tree using an explicit work queue.  Dequeue a process; if its executable name
is the designated one, the pane is agent-bearing; otherwise enqueue its
children and continue; an exhausted queue means not agent-bearing. -/
def queueHasAgent (agent_name : String) : List ProcTree → Bool
  | [] => false
  | ProcTree.node _ comm children :: rest =>
      if comm = agent_name then true
      else queueHasAgent agent_name (rest ++ children)
termination_by queue => (queue.map sizeOf).sum
decreasing_by
  simp only [List.map_append, List.sum_append, List.map_cons, List.sum_cons,
    ProcTree.node.sizeOf_spec]
  have h : ∀ l : List ProcTree, (l.map sizeOf).sum < sizeOf l := by
    intro l
    induction l with
    | nil => simp
    | cons a as ih =>
        simp only [List.map_cons, List.sum_cons, List.cons.sizeOf_spec]
        omega
  have h2 := h children
  omega

mutual

/-- Specification predicate: some process in the tree (the root included)
has the designated executable name. -/
def ProcTree.hasAgent (agent_name : String) : ProcTree → Bool
  | .node _ comm children =>
      (comm = agent_name) || hasAgentAny agent_name children

/-- Exists-a-tree-with-the-agent over a list of trees. -/
def hasAgentAny (agent_name : String) : List ProcTree → Bool
  | [] => false
  | t :: ts => ProcTree.hasAgent agent_name t || hasAgentAny agent_name ts

end

/-- Example title with a leading busy-indicator character (U+28FF). -/
def exActiveTitle : String := "⠿ working"

/-- Example empty title. -/
def exEmptyTitle : String := ""

/-- Index `j` is the first position of `l` whose element satisfies `p`. -/
def IsFirstMatch (p : α → Bool) (l : List α) (j : Nat) : Prop :=
  (∃ x, l.get? j = some x ∧ p x = true)
    ∧ ∀ i, i < j → ∀ y, l.get? i = some y → p y = false

/-- Example pane ids, targets and names used by the concrete witnesses. -/
def pidA : String := "%1"

def pidB : String := "%2"

def targetA : String := "dev:1.1"

def targetB : String := "dev:1.2"

def groupDev : String := "dev"

/-- Example sessions. -/
def exSessA : ClaudeSession :=
  { pane_id := pidA, pane_target := targetA, title := exActiveTitle,
    session_name := groupDev, status := SessionStatus.active }

def exSessB : ClaudeSession :=
  { pane_id := pidB, pane_target := targetB, title := exEmptyTitle,
    session_name := groupDev, status := SessionStatus.idle }

/-- Old visible list: the session row for pane A, then one for pane B. -/
def exOldItems : List VisibleItem :=
  [VisibleItem.session exSessA groupDev groupDev false,
    VisibleItem.session exSessB groupDev groupDev false]

/-- New visible list: a header first, pane A's row moved to index 2. -/
def exNewItems : List VisibleItem :=
  [VisibleItem.groupHeader groupDev groupDev 2 true false false,
    VisibleItem.session exSessB groupDev groupDev false,
    VisibleItem.session exSessA groupDev groupDev true]

/-- Example preview contents. -/
def exOldContent : String := "shell output, page 1"

def exNewContent : String := "shell output, page 2"

/-- Example watcher state: watching pane A, timer unarmed. -/
def exWatcher : WatcherState :=
  { previous_content := exOldContent, current_target := some targetA,
    debounce := none, fallback_deadline := 2000 }

/-- Example watcher state with an armed debounce timer. -/
def exWatcherPending : WatcherState :=
  { previous_content := exOldContent, current_target := some targetA,
    debounce := some 60, fallback_deadline := 2000 }

/-- The row range actually walked, as a function of the bounds and length. -/
def walkedRows (start_row end_row line_count : Nat) : List Nat :=
  List.range' (min start_row (line_count - 1))
    (min end_row (line_count - 1) + 1 - min start_row (line_count - 1))

/-- The claim's per-row extraction formula, composed over the walked rows. -/
def specSegments (lines : List TermLine) (start_row start_col end_row end_col : Nat) :
    List (List Char) :=
  (walkedRows start_row end_row lines.length).map
    (fun row => segmentFor (plainLine (lines.getD row []))
        row start_row start_col end_row end_col)

/-- Example plain lines for the extraction witness. -/
def exHello : List Char := "hello".data

def exMiddle : List Char := "middle".data

def exWorld : List Char := "world!".data

/-- Three one-span lines: "hello", "middle", "world!". -/
def exLines : List TermLine :=
  [[TermSpan.mk exHello {}], [TermSpan.mk exMiddle {}], [TermSpan.mk exWorld {}]]

/-- Selection from (row 0, col 3) to (row 2, col 3). -/
def exSel : PreviewSelection :=
  { anchor := { row := 0, col := 3 }, cursor := { row := 2, col := 3 },
    is_dragging := false }

/-- The expected extraction: "lo\nmiddle\nwor". -/
def exExtractResult : List Char := "lo\nmiddle\nwor".data

/-- A selection whose rows and columns all lie beyond the 3-line example's
bounds. -/
def exSelOut : PreviewSelection :=
  { anchor := { row := 7, col := 99 }, cursor := { row := 12, col := 50 },
    is_dragging := false }

/-- Ten digit characters: a single style run spanning columns [0, 10). -/
def exDigits : List Char := "0123456789".data

/-- First three digits, columns [0, 3). -/
def exDigitsPre : List Char := "012".data

/-- Middle four digits, columns [3, 7). -/
def exDigitsMid : List Char := "3456".data

/-- Last three digits, columns [7, 10). -/
def exDigitsSuf : List Char := "789".data

/-- A base style distinct from the highlight style. -/
def exBaseStyle : TermStyle := { fg := some (TermColor.rgb 1 2 3), bg := none }

/-- Initial model state: empty everything. -/
def exSt0 : AppModel :=
  { sessions := [], unread_pane_ids := [], prev_status_map := [],
    unread_order := [], unread_counter := 0 }

/-- A snapshot in which pane A went idle, followed by killing pane A's
target. -/
def exUpdates : List DispatcherUpdate :=
  [DispatcherUpdate.snapshot [exSessA],
    DispatcherUpdate.snapshot
      [{ exSessA with status := SessionStatus.idle }, exSessB],
    DispatcherUpdate.kill targetA]

/-- Pane A after going idle. -/
def exSessAIdle : ClaudeSession := { exSessA with status := SessionStatus.idle }

/-- A state that recorded pane A as Active, with counter 5. -/
def exStForSnap : AppModel :=
  { sessions := [exSessA], unread_pane_ids := [],
    prev_status_map := [(pidA, SessionStatus.active)],
    unread_order := [], unread_counter := 5 }

/-- A state that recorded both pane A and pane B as Active, with counter 5. -/
def exStTwo : AppModel :=
  { sessions := [exSessA, exSessB], unread_pane_ids := [],
    prev_status_map := [(pidA, SessionStatus.active), (pidB, SessionStatus.active)],
    unread_order := [], unread_counter := 5 }

/-! ## Theorems -/

/-- C5: `parse_session_status` yields Active exactly when the title's leading
character lies in the designated code-point range [0x2800, 0x28FF], and Idle
otherwise, including for titles with no leading character. -/
theorem parse_session_status_spec (t : String) :
    (parse_session_status t = SessionStatus.active ↔
      ∃ c, t.data.head? = some c ∧ BRAILLE_START ≤ c.toNat ∧ c.toNat ≤ BRAILLE_END)
    ∧ (t.data.head? = none → parse_session_status t = SessionStatus.idle)
    ∧ (parse_session_status t = SessionStatus.active
        ∨ parse_session_status t = SessionStatus.idle) := by
  unfold parse_session_status
  cases h : t.data.head? with
  | none => simp
  | some c =>
      by_cases hc : BRAILLE_START ≤ c.toNat ∧ c.toNat ≤ BRAILLE_END
      · refine ⟨?_, by simp, by simp [hc]⟩
        simp only [if_pos hc]
        constructor
        · intro _
          exact ⟨c, rfl, hc.1, hc.2⟩
        · intro _
          trivial
      · refine ⟨?_, by simp, by simp [hc]⟩
        simp only [if_neg hc]
        constructor
        · intro hcontra
          cases hcontra
        · rintro ⟨c2, hc2, h1, h2⟩
          injection hc2 with hcc
          exact absurd ⟨hcc ▸ h1, hcc ▸ h2⟩ hc

/-- Witness for C5: evaluates `parse_session_status` at concrete titles
through the theorem. -/
theorem parse_session_status_spec_witness :
    parse_session_status exActiveTitle = SessionStatus.active
      ∧ parse_session_status exEmptyTitle = SessionStatus.idle :=
  ⟨(parse_session_status_spec exActiveTitle).1.mpr ⟨'⠿', by decide, by decide, by decide⟩,
    (parse_session_status_spec exEmptyTitle).2.1 (by decide)⟩

/-- The predicate `hasAgentAny` distributes over list append. -/
theorem hasAgentAny_append (agent_name : String) (l1 l2 : List ProcTree) :
    hasAgentAny agent_name (l1 ++ l2)
      = (hasAgentAny agent_name l1 || hasAgentAny agent_name l2) := by
  induction l1 with
  | nil => simp [hasAgentAny]
  | cons t ts ih => simp [hasAgentAny, ih, Bool.or_assoc]

/-- The iterative queue scan decides exactly "some process in some queued
tree has the designated name". -/
theorem queueHasAgent_eq_hasAgentAny (agent_name : String) (l : List ProcTree) :
    queueHasAgent agent_name l = hasAgentAny agent_name l := by
  generalize hn : (l.map sizeOf).sum = n
  induction n using Nat.strong_induction_on generalizing l with
  | _ n ih =>
      cases l with
      | nil => simp [queueHasAgent, hasAgentAny]
      | cons t rest =>
          cases t with
          | node pid comm children =>
              rw [queueHasAgent]
              by_cases hc : comm = agent_name
              · simp [hc, hasAgentAny, ProcTree.hasAgent]
              · have hlt : ((rest ++ children).map sizeOf).sum < n := by
                  subst hn
                  simp only [List.map_append, List.sum_append, List.map_cons,
                    List.sum_cons, ProcTree.node.sizeOf_spec]
                  have h : ∀ l : List ProcTree, (l.map sizeOf).sum < sizeOf l := by
                    intro l
                    induction l with
                    | nil => simp
                    | cons a as ih =>
                        simp only [List.map_cons, List.sum_cons,
                          List.cons.sizeOf_spec]
                        omega
                  have h2 := h children
                  omega
                rw [if_neg hc, ih _ hlt _ rfl, hasAgentAny_append]
                simp [hasAgentAny, ProcTree.hasAgent, hc, Bool.or_comm]

/-- C4: pane classification scans the pane's process descendant tree with an
iterative breadth-first pass over an explicit work queue seeded with the root
process, and reports agent-bearing exactly when some process in the tree has
the designated executable name.  (Modelled from the spec: the current
application's tmux module is not among the provided sources; the legacy
recursive classifier in apps/cli-rs/src/tmux.rs is its predecessor.) -/
theorem pane_classification_bfs (agent_name : String) (t : ProcTree) :
    queueHasAgent agent_name [t] = ProcTree.hasAgent agent_name t := by
  rw [queueHasAgent_eq_hasAgentAny]
  simp [hasAgentAny]

/-- Function `listPosition` finds exactly the first matching index. -/
theorem listPosition_eq_some_iff (p : α → Bool) (l : List α) (j : Nat) :
    listPosition p l = some j ↔ IsFirstMatch p l j := by
  induction l generalizing j with
  | nil => simp [listPosition, IsFirstMatch]
  | cons a as ih =>
      unfold IsFirstMatch
      by_cases hpa : p a
      · constructor
        · intro h
          rw [listPosition, if_pos hpa] at h
          injection h with h
          subst h
          exact ⟨⟨a, rfl, hpa⟩, fun i hi => absurd hi (Nat.not_lt_zero i)⟩
        · rintro ⟨-, hmin⟩
          rw [listPosition, if_pos hpa]
          cases j with
          | zero => rfl
          | succ j =>
              have := hmin 0 (Nat.succ_pos j) a rfl
              rw [hpa] at this
              cases this
      · constructor
        · intro h
          rw [listPosition, if_neg hpa] at h
          cases hrec : listPosition p as with
          | none => rw [hrec] at h; cases h
          | some j2 =>
              rw [hrec] at h
              injection h with h
              subst h
              obtain ⟨hex, hmin⟩ := (ih j2).mp hrec
              constructor
              · obtain ⟨x, hx, hpx⟩ := hex
                exact ⟨x, by simpa using hx, hpx⟩
              · intro i hi y hy
                cases i with
                | zero =>
                    rw [List.get?_cons_zero] at hy
                    injection hy with hy
                    subst hy
                    simpa using hpa
                | succ i =>
                    rw [List.get?_cons_succ] at hy
                    exact hmin i (Nat.lt_of_succ_lt_succ hi) y hy
        · rintro ⟨hex, hmin⟩
          rw [listPosition, if_neg hpa]
          cases j with
          | zero =>
              obtain ⟨x, hx, hpx⟩ := hex
              rw [List.get?_cons_zero] at hx
              injection hx with hx
              subst hx
              rw [hpx] at hpa
              cases hpa rfl
          | succ j =>
              have hrec : listPosition p as = some j := by
                refine (ih j).mpr ⟨?_, ?_⟩
                · obtain ⟨x, hx, hpx⟩ := hex
                  exact ⟨x, by simpa using hx, hpx⟩
                · intro i hi y hy
                  exact hmin (i + 1) (Nat.succ_lt_succ hi) y (by simpa using hy)
              rw [hrec]

/-- Function `listPosition` misses exactly when no element matches. -/
theorem listPosition_eq_none_iff (p : α → Bool) (l : List α) :
    listPosition p l = none ↔ ∀ x ∈ l, p x = false := by
  induction l with
  | nil => simp [listPosition]
  | cons a as ih =>
      by_cases hpa : p a
      · rw [listPosition, if_pos hpa]
        constructor
        · intro h
          cases h
        · intro h
          have := h a (List.mem_cons_self a as)
          rw [hpa] at this
          cases this
      · rw [listPosition, if_neg hpa]
        cases hrec : listPosition p as with
        | some j2 =>
            constructor
            · intro h
              cases h
            · intro h
              have hnone : listPosition p as = none :=
                (ih).mpr (fun x hx => h x (List.mem_cons_of_mem a hx))
              rw [hnone] at hrec
              cases hrec
        | none =>
            constructor
            · intro _ x hx
              rcases List.mem_cons.mp hx with he | hm
              · subst he
                simpa using hpa
              · exact (ih.mp hrec) x hm
            · intro _
              rfl

/-- C3: if the old selected item is a session row whose pane id (or a group
header whose name) still occurs in the rebuilt list, the resolved index is
that entity's first occurrence; otherwise — including when the old index is
out of range — the result is min(old_index, new_length-1), or 0 on an empty
list. -/
theorem resolve_selected_index_spec (new_items old_items : List VisibleItem)
    (old_index : Nat) :
    (∀ s g d u j, old_items.get? old_index = some (.session s g d u) →
        IsFirstMatch (sessionMatches s.pane_id) new_items j →
        resolve_selected_index new_items old_items old_index = j)
    ∧ (∀ n d c a u col j, old_items.get? old_index = some (.groupHeader n d c a u col) →
        IsFirstMatch (headerMatches n) new_items j →
        resolve_selected_index new_items old_items old_index = j)
    ∧ (∀ s g d u, old_items.get? old_index = some (.session s g d u) →
        (∀ x ∈ new_items, sessionMatches s.pane_id x = false) →
        resolve_selected_index new_items old_items old_index
          = fallbackIndex new_items old_index)
    ∧ (∀ n d c a u col, old_items.get? old_index = some (.groupHeader n d c a u col) →
        (∀ x ∈ new_items, headerMatches n x = false) →
        resolve_selected_index new_items old_items old_index
          = fallbackIndex new_items old_index)
    ∧ (old_items.get? old_index = none →
        resolve_selected_index new_items old_items old_index
          = fallbackIndex new_items old_index)
    ∧ (fallbackIndex new_items old_index
        = if new_items = [] then 0 else min old_index (new_items.length - 1)) := by
  refine ⟨?_, ?_, ?_, ?_, ?_, ?_⟩
  · intro s g d u j hold hfirst
    have hpos := (listPosition_eq_some_iff (sessionMatches s.pane_id) new_items j).mpr hfirst
    simp only [resolve_selected_index, hold, hpos]
  · intro n d c a u col j hold hfirst
    have hpos := (listPosition_eq_some_iff (headerMatches n) new_items j).mpr hfirst
    simp only [resolve_selected_index, hold, hpos]
  · intro s g d u hold hnone
    have hpos := (listPosition_eq_none_iff (sessionMatches s.pane_id) new_items).mpr hnone
    simp only [resolve_selected_index, hold, hpos]
  · intro n d c a u col hold hnone
    have hpos := (listPosition_eq_none_iff (headerMatches n) new_items).mpr hnone
    simp only [resolve_selected_index, hold, hpos]
  · intro hold
    simp only [resolve_selected_index, hold]
  · unfold fallbackIndex
    by_cases he : new_items = []
    · simp [he]
    · simp [he, List.isEmpty_iff]

/-- Witness for C3: pane A's row moved from index 0 to index 2 and the
resolved index follows it. -/
theorem resolve_selected_index_spec_witness :
    resolve_selected_index exNewItems exOldItems 0 = 2 := by
  refine (resolve_selected_index_spec exNewItems exOldItems 0).1
    exSessA groupDev groupDev false 2 (by decide) ⟨⟨_, rfl, by decide⟩, ?_⟩
  intro i hi y hy
  match i, hi with
  | 0, _ =>
      rw [show exNewItems.get? 0
          = some (VisibleItem.groupHeader groupDev groupDev 2 true false false) from rfl]
        at hy
      injection hy with hy
      rw [← hy]
      decide
  | 1, _ =>
      rw [show exNewItems.get? 1
          = some (VisibleItem.session exSessB groupDev groupDev false) from rfl] at hy
      injection hy with hy
      rw [← hy]
      decide

/-- Running an appended event list runs the pieces in sequence. -/
theorem watcher_run_append (st : WatcherState) (l1 l2 : List WatcherEvent) :
    watcher_run st (l1 ++ l2)
      = ((watcher_run (watcher_run st l1).1 l2).1,
          (watcher_run st l1).2 ++ (watcher_run (watcher_run st l1).1 l2).2) := by
  induction l1 generalizing st with
  | nil => simp [watcher_run]
  | cons e es ih =>
      simp only [List.cons_append, watcher_run, List.append_eq, ih, List.append_assoc]

/-- A burst of pipe-notification events publishes nothing, captures nothing,
and only (re)arms the debounce timer: content, target and the fallback
deadline are untouched, and after a nonempty burst the timer is armed. -/
theorem watcher_run_fifoData (st : WatcherState) (nows : List Nat) :
    (watcher_run st (nows.map WatcherEvent.fifoData)).2 = []
    ∧ (watcher_run st (nows.map WatcherEvent.fifoData)).1.previous_content
        = st.previous_content
    ∧ (watcher_run st (nows.map WatcherEvent.fifoData)).1.current_target
        = st.current_target
    ∧ (nows ≠ [] →
        ∃ d, (watcher_run st (nows.map WatcherEvent.fifoData)).1.debounce = some d) := by
  induction nows generalizing st with
  | nil => simp [watcher_run]
  | cons t ts ih =>
      obtain ⟨h1, h2, h3, h4⟩ := ih { st with debounce := some (t + debounce_duration) }
      have hrun : watcher_run st (List.map WatcherEvent.fifoData (t :: ts))
          = watcher_run { st with debounce := some (t + debounce_duration) }
              (List.map WatcherEvent.fifoData ts) := rfl
      refine ⟨by rw [hrun]; exact h1, by rw [hrun]; exact h2, by rw [hrun]; exact h3, ?_⟩
      intro _
      rw [hrun]
      by_cases hts : ts = []
      · subst hts
        exact ⟨t + debounce_duration, rfl⟩
      · exact h4 hts

/-- C8: N ≥ 1 pipe-notification bursts before the debounce timer fires
produce no capture or publish themselves; the single debounce firing then
performs exactly one capture of the current target and publishes the captured
content exactly when it differs from the last published value.  The capture
happens only at fire time, so its content reflects everything up to and
including the last burst. -/
theorem debounce_coalesces_bursts (st : WatcherState) (target : String)
    (nows : List Nat) (c : String) (tF : Nat)
    (htgt : st.current_target = some target) (hne : nows ≠ []) :
    (watcher_run st (nows.map WatcherEvent.fifoData)).2 = []
    ∧ (watcher_run st (nows.map WatcherEvent.fifoData
          ++ [WatcherEvent.debounceFired (some c) tF])).2
        = WatcherOutput.captured target
            :: (if c = st.previous_content then [] else [WatcherOutput.published c]) := by
  obtain ⟨h1, h2, h3, h4⟩ := watcher_run_fifoData st nows
  obtain ⟨d, hd⟩ := h4 hne
  refine ⟨h1, ?_⟩
  rw [watcher_run_append, h1]
  simp only [List.nil_append, watcher_run, watcher_step, hd, captureAndPublish, h2, h3,
    htgt]
  by_cases hc : c = st.previous_content
  · simp [hc]
  · simp [hc]

/-- C9: a target switch while a debounce timer is pending clears the timer
(a subsequent debounce firing is a no-op), performs one immediate capture of
the new target, and publishes exactly that content — so the first publish
after the switch is the new target's capture, never stale content of the old
target. -/
theorem target_switch_discards_pending (st : WatcherState) (d : Nat)
    (new_target c : String) (tS : Nat) (_hpending : st.debounce = some d) :
    (watcher_step st (WatcherEvent.targetChanged (some new_target) (some c) tS)).2
        = [WatcherOutput.captured new_target, WatcherOutput.published c]
    ∧ (watcher_step st (WatcherEvent.targetChanged (some new_target) (some c) tS)).1.debounce
        = none
    ∧ (watcher_step st
          (WatcherEvent.targetChanged (some new_target) (some c) tS)).1.current_target
        = some new_target
    ∧ (watcher_step st
          (WatcherEvent.targetChanged (some new_target) (some c) tS)).1.previous_content
        = c
    ∧ ∀ cr tF,
        watcher_step
            (watcher_step st (WatcherEvent.targetChanged (some new_target) (some c) tS)).1
            (WatcherEvent.debounceFired cr tF)
          = ((watcher_step st
                (WatcherEvent.targetChanged (some new_target) (some c) tS)).1, []) := by
  refine ⟨rfl, rfl, rfl, rfl, ?_⟩
  intro cr tF
  rfl

/-- Witness for C8: two bursts then a fire, from the concrete state. -/
theorem debounce_coalesces_bursts_witness :
    (watcher_run exWatcher ([10, 20].map WatcherEvent.fifoData)).2 = []
    ∧ (watcher_run exWatcher ([10, 20].map WatcherEvent.fifoData
          ++ [WatcherEvent.debounceFired (some exNewContent) 70])).2
        = WatcherOutput.captured targetA
            :: (if exNewContent = exWatcher.previous_content then []
                else [WatcherOutput.published exNewContent]) :=
  debounce_coalesces_bursts exWatcher targetA [10, 20] exNewContent 70
    (by decide) (by decide)

/-- Witness for C9: switching from pane A to pane B while the timer is armed. -/
theorem target_switch_discards_pending_witness :
    (watcher_step exWatcherPending
        (WatcherEvent.targetChanged (some targetB) (some exNewContent) 99)).2
      = [WatcherOutput.captured targetB, WatcherOutput.published exNewContent] :=
  (target_switch_discards_pending exWatcherPending 60 targetB exNewContent 99
    (by decide)).1

/-- Traversal `optionTraverse` succeeds with the mapped list when every
element succeeds. -/
theorem optionTraverse_eq_map (f : α → Option β) (g : α → β) (l : List α)
    (h : ∀ a ∈ l, f a = some (g a)) : optionTraverse f l = some (l.map g) := by
  induction l with
  | nil => rfl
  | cons a as ih =>
      unfold optionTraverse
      rw [h a (List.mem_cons_self a as), ih (fun x hx => h x (List.mem_cons_of_mem a hx))]
      rfl

/-- Bounds from `ordered_bounds` really are ordered: start row strictly below end row, or
equal rows with start column at or before end column. -/
theorem ordered_bounds_ordered (sel : PreviewSelection) :
    (ordered_bounds sel).1 < (ordered_bounds sel).2.2.1
      ∨ ((ordered_bounds sel).1 = (ordered_bounds sel).2.2.1
          ∧ (ordered_bounds sel).2.1 ≤ (ordered_bounds sel).2.2.2) := by
  unfold ordered_bounds
  by_cases h : sel.anchor.row < sel.cursor.row
      ∨ (sel.anchor.row = sel.cursor.row ∧ sel.anchor.col ≤ sel.cursor.col)
  · simp only [if_pos h]
    exact h
  · simp only [if_neg h]
    push_neg at h
    omega

/-- C7: the extracted text is the newline-join of, per walked row: the
[start_col, end_col) character slice when start and end share the row, the
suffix from start_col on the first row, the prefix up to end_col on the last
row, and the whole line in between (`segmentFor`); when the end row is in
bounds the walked rows are exactly start_row..end_row. -/
theorem extract_selected_text_spec (lines : List TermLine) (sel : PreviewSelection) :
    (extract_selected_text lines sel
        = some (joinLines (specSegments lines (ordered_bounds sel).1
            (ordered_bounds sel).2.1 (ordered_bounds sel).2.2.1
            (ordered_bounds sel).2.2.2))
      ∨ lines = [])
    ∧ ((ordered_bounds sel).2.2.1 < lines.length →
        walkedRows (ordered_bounds sel).1 (ordered_bounds sel).2.2.1 lines.length
          = List.range' (ordered_bounds sel).1
              ((ordered_bounds sel).2.2.1 + 1 - (ordered_bounds sel).1)) := by
  constructor
  · by_cases hemp : lines = []
    · exact Or.inr hemp
    · refine Or.inl ?_
      have hlen : 0 < lines.length := List.length_pos.mpr hemp
      have hall : ∀ row ∈ walkedRows (ordered_bounds sel).1
            (ordered_bounds sel).2.2.1 lines.length,
          (lines.get? row).map (fun line => segmentFor (plainLine line)
              row (ordered_bounds sel).1 (ordered_bounds sel).2.1
              (ordered_bounds sel).2.2.1 (ordered_bounds sel).2.2.2)
            = some (segmentFor (plainLine (lines.getD row []))
                row (ordered_bounds sel).1 (ordered_bounds sel).2.1
                (ordered_bounds sel).2.2.1 (ordered_bounds sel).2.2.2) := by
        intro row hrow
        have hrowlt : row < lines.length := by
          unfold walkedRows at hrow
          obtain ⟨i, hi, hri⟩ := List.mem_range'.mp hrow
          omega
        cases hx : lines.get? row with
        | none =>
            rw [List.get?_eq_getElem?, List.getElem?_eq_none_iff] at hx
            omega
        | some line =>
            have hgd : lines.getD row [] = line := by
              rw [List.getD_eq_getElem?_getD, ← List.get?_eq_getElem?, hx]
              rfl
            rw [hgd]
            rfl
      calc extract_selected_text lines sel
          = (optionTraverse (fun row =>
                (lines.get? row).map (fun line => segmentFor (plainLine line)
                  row (ordered_bounds sel).1 (ordered_bounds sel).2.1
                  (ordered_bounds sel).2.2.1 (ordered_bounds sel).2.2.2))
              (walkedRows (ordered_bounds sel).1 (ordered_bounds sel).2.2.1
                lines.length)).map joinLines := rfl
        _ = (some ((walkedRows (ordered_bounds sel).1 (ordered_bounds sel).2.2.1
                lines.length).map
              (fun row => segmentFor (plainLine (lines.getD row []))
                row (ordered_bounds sel).1 (ordered_bounds sel).2.1
                (ordered_bounds sel).2.2.1 (ordered_bounds sel).2.2.2))).map
              joinLines := by
            rw [optionTraverse_eq_map _ _ _ hall]
        _ = some (joinLines (specSegments lines (ordered_bounds sel).1
              (ordered_bounds sel).2.1 (ordered_bounds sel).2.2.1
              (ordered_bounds sel).2.2.2)) := rfl
  · intro hend
    have hord := ordered_bounds_ordered sel
    unfold walkedRows
    have h1 : min (ordered_bounds sel).1 (lines.length - 1) = (ordered_bounds sel).1 := by
      omega
    have h2 : min (ordered_bounds sel).2.2.1 (lines.length - 1)
        = (ordered_bounds sel).2.2.1 := by
      omega
    rw [h1, h2]

/-- Witness for C7: the 3-line example from the spec, evaluated through the
theorem. -/
theorem extract_selected_text_spec_witness :
    extract_selected_text exLines exSel = some exExtractResult := by
  rcases (extract_selected_text_spec exLines exSel).1 with h | h
  · exact h.trans (by decide)
  · exact absurd h (by decide)

/-- C10: on any text with at least one line, extraction never goes out of
bounds — the walked rows are clamped to the last line index, so every line
access succeeds and a string is returned. -/
theorem extract_selected_text_safe (lines : List TermLine) (sel : PreviewSelection)
    (hne : lines ≠ []) : (extract_selected_text lines sel).isSome = true := by
  have hlen : 0 < lines.length := List.length_pos.mpr hne
  rcases (extract_selected_text_spec lines sel).1 with h | h
  · rw [h]
    rfl
  · exact absurd h hne

/-- Witness for C10: extraction still returns a string for the wildly
out-of-bounds selection. -/
theorem extract_selected_text_safe_witness :
    (extract_selected_text exLines exSelOut).isSome = true :=
  extract_selected_text_safe exLines exSelOut (by decide)

/-- Splitting a char list at two interior cut points and re-concatenating
gives back the original list. -/
theorem chars_slice_concat (c : List Char) (o1 o2 : Nat) (h12 : o1 ≤ o2) :
    chars_slice c 0 o1 ++ chars_slice c o1 o2 ++ chars_slice c o2 c.length = c := by
  unfold chars_slice
  simp only [List.drop_zero, Nat.sub_zero]
  have h1 : c.take o1 ++ (c.drop o1).take (o2 - o1) = c.take o2 := by
    rw [← List.take_add, Nat.add_sub_cancel' h12]
  have h2 : (c.drop o2).take (c.length - o2) = c.drop o2 := by
    apply List.take_of_length_le
    simp
  rw [h1, h2, List.take_append_drop]

/-- Function `plainLine` distributes over span-list append. -/
theorem plainLine_append (a b : List TermSpan) :
    plainLine (a ++ b) = plainLine a ++ plainLine b := by
  simp [plainLine]

/-- Per-span highlight splitting preserves the span's character content. -/
theorem highlightSpanAt_content (col s e : Nat) (sp : TermSpan) (hse : s ≤ e) :
    plainLine (highlightSpanAt col s e sp) = sp.content := by
  simp only [highlightSpanAt]
  split_ifs with h1 h2 h3 h4
  · simp [plainLine]
  · simp [plainLine]
  · have hA : max s col - col ≤ min e (col + sp.content.length) - col := by omega
    have hmain := chars_slice_concat sp.content _ _ hA
    simp only [plainLine, List.map_append, List.map_cons, List.map_nil,
      List.flatten_append, List.flatten_cons, List.flatten_nil, List.append_nil,
      List.nil_append]
    exact hmain
  · have hA : max s col - col ≤ min e (col + sp.content.length) - col := by omega
    have hmain := chars_slice_concat sp.content _ _ hA
    have ho2 : min e (col + sp.content.length) - col = sp.content.length := by omega
    have hz : chars_slice sp.content sp.content.length sp.content.length = [] := by
      simp [chars_slice]
    rw [ho2] at hmain ⊢
    rw [hz, List.append_nil] at hmain
    simp only [plainLine, List.map_append, List.map_cons, List.map_nil,
      List.flatten_append, List.flatten_cons, List.flatten_nil, List.append_nil,
      List.nil_append]
    exact hmain
  · have hA : max s col - col ≤ min e (col + sp.content.length) - col := by omega
    have hmain := chars_slice_concat sp.content _ _ hA
    have ho1 : max s col - col = 0 := by omega
    have hz : chars_slice sp.content 0 0 = [] := by
      simp [chars_slice]
    rw [ho1] at hmain ⊢
    rw [hz, List.nil_append] at hmain
    simp only [plainLine, List.map_append, List.map_cons, List.map_nil,
      List.flatten_append, List.flatten_cons, List.flatten_nil, List.append_nil,
      List.nil_append]
    exact hmain
  · have hA : max s col - col ≤ min e (col + sp.content.length) - col := by omega
    have hmain := chars_slice_concat sp.content _ _ hA
    have ho1 : max s col - col = 0 := by omega
    have ho2 : min e (col + sp.content.length) - col = sp.content.length := by omega
    have hz1 : chars_slice sp.content 0 0 = [] := by
      simp [chars_slice]
    have hz2 : chars_slice sp.content sp.content.length sp.content.length = [] := by
      simp [chars_slice]
    rw [ho1, ho2] at hmain ⊢
    rw [hz1, hz2, List.nil_append, List.append_nil] at hmain
    simp only [plainLine, List.map_append, List.map_cons, List.map_nil,
      List.flatten_append, List.flatten_cons, List.flatten_nil, List.append_nil,
      List.nil_append]
    exact hmain

/-- C6: highlight application on a line's ordered style runs.  A run entirely
outside [sel_start, sel_end) is unchanged; a run entirely inside gets the
highlight patched onto its style; a straddling run becomes at most three runs
whose concatenated content is the original and whose style is the original
outside the one highlighted part; the whole line's character content is
always preserved; and the single run [0,10) with selection [3,7) splits into
exactly three runs of widths 3, 4, 3 with only the middle run highlighted. -/
theorem highlight_spans_in_range_spec :
    (∀ col s e (sp : TermSpan), col + sp.content.length ≤ s ∨ col ≥ e →
        highlightSpanAt col s e sp = [sp])
    ∧ (∀ col s e (sp : TermSpan), ¬(col + sp.content.length ≤ s ∨ col ≥ e) →
        col ≥ s ∧ col + sp.content.length ≤ e →
        highlightSpanAt col s e sp
          = [{ sp with style := sp.style.patch SELECTION_BG }])
    ∧ (∀ col s e (sp : TermSpan), s ≤ e →
        ¬(col + sp.content.length ≤ s ∨ col ≥ e) →
        ¬(col ≥ s ∧ col + sp.content.length ≤ e) →
        plainLine (highlightSpanAt col s e sp) = sp.content
        ∧ (highlightSpanAt col s e sp).length ≤ 3
        ∧ ∃ pre mid post, highlightSpanAt col s e sp = pre ++ mid :: post
            ∧ mid.style = sp.style.patch SELECTION_BG
            ∧ (∀ q ∈ pre, q.style = sp.style)
            ∧ (∀ q ∈ post, q.style = sp.style))
    ∧ (∀ (spans : List TermSpan) s e, s ≤ e →
        plainLine (highlight_spans_in_range spans s e) = plainLine spans)
    ∧ (highlight_spans_in_range [TermSpan.mk exDigits exBaseStyle] 3 7
        = [TermSpan.mk exDigitsPre exBaseStyle,
            TermSpan.mk exDigitsMid (TermStyle.patch exBaseStyle SELECTION_BG),
            TermSpan.mk exDigitsSuf exBaseStyle]
      ∧ (highlight_spans_in_range [TermSpan.mk exDigits exBaseStyle] 3 7).map
          (fun q => q.content.length) = [3, 4, 3]) := by
  refine ⟨?_, ?_, ?_, ?_, by decide, by decide⟩
  · intro col s e sp h
    simp only [highlightSpanAt]
    rw [if_pos h]
  · intro col s e sp h1 h2
    simp only [highlightSpanAt]
    rw [if_neg h1, if_pos h2]
  · intro col s e sp hse h1 h2
    refine ⟨highlightSpanAt_content col s e sp hse, ?_, ?_⟩
    · simp only [highlightSpanAt]
      split_ifs <;> simp
    · simp only [highlightSpanAt]
      rw [if_neg h1, if_neg h2]
      refine ⟨(if 0 < max s col - col then
            [TermSpan.mk (chars_slice sp.content 0 (max s col - col)) sp.style]
          else []),
        TermSpan.mk
          (chars_slice sp.content (max s col - col)
            (min e (col + sp.content.length) - col))
          (sp.style.patch SELECTION_BG),
        (if min e (col + sp.content.length) - col < sp.content.length then
            [TermSpan.mk
              (chars_slice sp.content (min e (col + sp.content.length) - col)
                sp.content.length) sp.style]
          else []),
        by simp, rfl, ?_, ?_⟩
      · intro q hq
        by_cases h3 : 0 < max s col - col
        · rw [if_pos h3] at hq
          rw [List.mem_singleton] at hq
          rw [hq]
        · rw [if_neg h3] at hq
          cases hq
      · intro q hq
        by_cases h4 : min e (col + sp.content.length) - col < sp.content.length
        · rw [if_pos h4] at hq
          rw [List.mem_singleton] at hq
          rw [hq]
        · rw [if_neg h4] at hq
          cases hq
  · intro spans s e hse
    unfold highlight_spans_in_range
    have hgen : ∀ (l : List TermSpan) (col : Nat),
        plainLine (highlightFrom col s e l) = plainLine l := by
      intro l
      induction l with
      | nil => intro col; rfl
      | cons sp rest ih =>
          intro col
          simp only [highlightFrom]
          rw [plainLine_append, highlightSpanAt_content col s e sp hse,
            ih (col + sp.content.length)]
          simp [plainLine]
    exact hgen spans 0

/-- Witness for C6: the first conjunct applied to a concrete run lying
entirely left of the selection. -/
theorem highlight_spans_in_range_spec_witness :
    highlightSpanAt 0 3 7 (TermSpan.mk exDigitsPre exBaseStyle)
      = [TermSpan.mk exDigitsPre exBaseStyle] :=
  highlight_spans_in_range_spec.1 0 3 7 (TermSpan.mk exDigitsPre exBaseStyle)
    (by decide)

/-- A snapshot update establishes the unread-subset invariant outright: the
retain pass keeps only pane ids present in the incoming session list. -/
theorem sessionsUpdated_establishes (st : AppModel) (sessions : List ClaudeSession) :
    UnreadSubset (sessionsUpdated st sessions) := by
  intro id hid
  unfold sessionsUpdated at hid ⊢
  simp only at hid ⊢
  rw [List.mem_filter] at hid
  exact of_decide_eq_true hid.2

/-- A snapshot update leaves the session list exactly the snapshot, so
target-nodup carries over from the snapshot itself. -/
theorem sessionsUpdated_nodup (st : AppModel) (sessions : List ClaudeSession)
    (hn : nodupTargets sessions) : nodupTargets (sessionsUpdated st sessions).sessions := by
  unfold sessionsUpdated
  exact hn

/-- Killing a pane preserves the unread-subset invariant when pane targets
are pairwise distinct. -/
theorem killPane_preserves (st : AppModel) (target : String)
    (hs : UnreadSubset st) (hn : nodupTargets st.sessions) :
    UnreadSubset (killPane st target) := by
  intro id hid
  unfold killPane at hid ⊢
  cases hfind : st.sessions.find? (fun s => s.pane_target = target) with
  | none =>
      simp only [hfind] at hid ⊢
      obtain ⟨sess, hsess, hpid⟩ := List.mem_map.mp (hs id hid)
      refine List.mem_map.mpr ⟨sess, ?_, hpid⟩
      rw [List.mem_filter]
      refine ⟨hsess, ?_⟩
      have hno := List.find?_eq_none.mp hfind sess hsess
      simp only [decide_eq_true_eq] at hno ⊢
      exact hno
  | some removed =>
      simp only [hfind] at hid ⊢
      unfold setRemove at hid
      rw [List.mem_filter] at hid
      obtain ⟨hidmem, hne⟩ := hid
      have hne2 : id ≠ removed.pane_id := of_decide_eq_true hne
      obtain ⟨sess, hsess, hpid⟩ := List.mem_map.mp (hs id hidmem)
      have hremmem : removed ∈ st.sessions := List.mem_of_find?_eq_some hfind
      have hremtgt : removed.pane_target = target := by
        have := List.find?_some hfind
        simpa using this
      refine List.mem_map.mpr ⟨sess, ?_, hpid⟩
      rw [List.mem_filter]
      refine ⟨hsess, ?_⟩
      simp only [decide_eq_true_eq]
      intro heq
      have hsr : sess = removed :=
        List.inj_on_of_nodup_map hn hsess hremmem (by rw [heq, hremtgt])
      rw [hsr] at hpid
      exact hne2 hpid.symm

/-- Killing a pane filters the session list, so target-nodup is preserved. -/
theorem killPane_nodup (st : AppModel) (target : String)
    (hn : nodupTargets st.sessions) : nodupTargets (killPane st target).sessions := by
  unfold killPane
  cases hfind : st.sessions.find? (fun s => s.pane_target = target) with
  | none =>
      simp only [hfind]
      exact List.Nodup.sublist
        (List.Sublist.map ClaudeSession.pane_target (List.filter_sublist _)) hn
  | some removed =>
      simp only [hfind]
      exact List.Nodup.sublist
        (List.Sublist.map ClaudeSession.pane_target (List.filter_sublist _)) hn

/-- Creating a session only appends a session and records its status, so the
invariant is preserved. -/
theorem createSession_preserves (st : AppModel) (s : ClaudeSession)
    (hs : UnreadSubset st) : UnreadSubset (createSession st s) := by
  intro id hid
  unfold createSession at hid ⊢
  simp only at hid ⊢
  rw [List.map_append]
  exact List.mem_append_left _ (hs id hid)

/-- Creating a session with a fresh target preserves target-nodup. -/
theorem createSession_nodup (st : AppModel) (s : ClaudeSession)
    (hn : nodupTargets st.sessions)
    (hfresh : s.pane_target ∉ st.sessions.map ClaudeSession.pane_target) :
    nodupTargets (createSession st s).sessions := by
  unfold createSession nodupTargets
  simp only
  rw [List.map_append, List.nodup_append]
  refine ⟨hn, by simp, ?_⟩
  intro a ha hmem
  simp only [List.map_cons, List.map_nil, List.mem_singleton] at hmem
  rw [hmem] at ha
  exact hfresh ha

/-- Marking a pane read shrinks the unread set, preserving the invariant. -/
theorem markRead_preserves (st : AppModel) (pane_id : String)
    (hs : UnreadSubset st) : UnreadSubset (markRead st pane_id) := by
  intro id hid
  unfold markRead setRemove at hid ⊢
  simp only at hid ⊢
  rw [List.mem_filter] at hid
  exact hs id hid.1

/-- One well-formed dispatcher update preserves both the unread-subset
invariant and target-nodup. -/
theorem applyUpdate_preserves (st : AppModel) (u : DispatcherUpdate)
    (hs : UnreadSubset st) (hn : nodupTargets st.sessions) (hu : updateOk st u) :
    UnreadSubset (applyUpdate st u) ∧ nodupTargets (applyUpdate st u).sessions := by
  cases u with
  | snapshot sessions =>
      exact ⟨sessionsUpdated_establishes st sessions,
        sessionsUpdated_nodup st sessions hu⟩
  | kill target =>
      exact ⟨killPane_preserves st target hs hn, killPane_nodup st target hn⟩
  | create s =>
      exact ⟨createSession_preserves st s hs, createSession_nodup st s hn hu⟩
  | markRead pane_id =>
      exact ⟨markRead_preserves st pane_id hs, hn⟩

/-- C1: starting from a state satisfying the invariant (with distinct pane
targets), every well-formed sequence of dispatcher updates — snapshots, kill,
create, mark-read — keeps the unread pane-id set a subset of the current
session list's pane ids after every update (every prefix of the sequence). -/
theorem unread_subset_after_updates (st0 : AppModel) (us : List DispatcherUpdate)
    (h1 : UnreadSubset st0) (h2 : nodupTargets st0.sessions) (h3 : runOk st0 us) :
    ∀ n, UnreadSubset (applyUpdates st0 (us.take n)) := by
  induction us generalizing st0 with
  | nil =>
      intro n
      simp only [List.take_nil]
      exact h1
  | cons u rest ih =>
      intro n
      obtain ⟨hu, hrest⟩ := h3
      cases n with
      | zero => exact h1
      | succ n =>
          rw [List.take_succ_cons]
          have hstep := applyUpdate_preserves st0 u h1 h2 hu
          exact ih (applyUpdate st0 u) hstep.1 hstep.2 hrest n

/-- Witness for C1: the invariant holds after each prefix of the concrete
update sequence. -/
theorem unread_subset_after_updates_witness :
    UnreadSubset (applyUpdates exSt0 (exUpdates.take 3)) :=
  unread_subset_after_updates exSt0 exUpdates (by decide) (by decide) (by decide) 3

/-- Membership in `setInsert`. -/
theorem mem_setInsert (u : List String) (x k : String) :
    k ∈ setInsert u x ↔ k = x ∨ k ∈ u := by
  unfold setInsert
  by_cases h : x ∈ u
  · rw [if_pos h]
    constructor
    · exact Or.inr
    · rintro (rfl | hk)
      · exact h
      · exact hk
  · rw [if_neg h]
    exact List.mem_cons

/-- Map insertion `orderInsert` binds its key to the inserted value. -/
theorem orderGet_insert_self (m : List (String × Nat)) (k : String) (v : Nat) :
    orderGet (orderInsert m k v) k = some v := by
  unfold orderGet orderInsert
  rw [List.find?_cons_of_pos _ (by simp)]
  rfl

/-- Filtering out one key leaves every other key's first binding intact. -/
theorem orderGet_filter_ne (m : List (String × Nat)) (k k2 : String) (h : k2 ≠ k) :
    orderGet (m.filter (fun e => e.1 ≠ k)) k2 = orderGet m k2 := by
  induction m with
  | nil => rfl
  | cons a as ih =>
      by_cases hak : a.1 = k
      · rw [List.filter_cons_of_neg (by simp [hak])]
        unfold orderGet
        rw [List.find?_cons_of_neg _ (by simp [hak]; exact fun hcontra => h hcontra.symm)]
        exact ih
      · rw [List.filter_cons_of_pos (by simp [hak])]
        by_cases ha2 : a.1 = k2
        · unfold orderGet
          rw [List.find?_cons_of_pos _ (by simp [ha2]),
            List.find?_cons_of_pos _ (by simp [ha2])]
        · unfold orderGet
          rw [List.find?_cons_of_neg _ (by simp [ha2]),
            List.find?_cons_of_neg _ (by simp [ha2])]
          exact ih

/-- Map insertion `orderInsert` leaves other keys' bindings intact. -/
theorem orderGet_insert_ne (m : List (String × Nat)) (k : String) (v : Nat)
    (k2 : String) (h : k2 ≠ k) :
    orderGet (orderInsert m k v) k2 = orderGet m k2 := by
  unfold orderInsert
  have : orderGet ((k, v) :: m.filter (fun e => e.1 ≠ k)) k2
      = orderGet (m.filter (fun e => e.1 ≠ k)) k2 := by
    unfold orderGet
    rw [List.find?_cons_of_neg _ (by simp; exact fun hc => h hc.symm)]
  rw [this, orderGet_filter_ne m k k2 h]

/-- Filtering bindings down to a key set containing `k` leaves `k`'s first
binding intact. -/
theorem orderGet_filter_memkeys (m : List (String × Nat)) (ids : List String)
    (k : String) (hk : k ∈ ids) :
    orderGet (m.filter (fun e => e.1 ∈ ids)) k = orderGet m k := by
  induction m with
  | nil => rfl
  | cons a as ih =>
      by_cases hae : a.1 = k
      · rw [List.filter_cons_of_pos (by simp [hae]; exact hk)]
        unfold orderGet
        rw [List.find?_cons_of_pos _ (by simp [hae]),
          List.find?_cons_of_pos _ (by simp [hae])]
      · by_cases hap : a.1 ∈ ids
        · rw [List.filter_cons_of_pos (by simpa using hap)]
          unfold orderGet
          rw [List.find?_cons_of_neg _ (by simp [hae]),
            List.find?_cons_of_neg _ (by simp [hae])]
          exact ih
        · rw [List.filter_cons_of_neg (by simpa using hap)]
          unfold orderGet
          rw [List.find?_cons_of_neg _ (by simp [hae])]
          exact ih

/-- The transition fold splits over list append. -/
theorem applyStatusTransitions_append (prev : List (String × SessionStatus))
    (l1 l2 : List ClaudeSession) (acc : List String × List (String × Nat) × Nat) :
    applyStatusTransitions prev (l1 ++ l2) acc
      = applyStatusTransitions prev l2 (applyStatusTransitions prev l1 acc) := by
  induction l1 generalizing acc with
  | nil => rfl
  | cons s rest ih =>
      obtain ⟨u, o, c⟩ := acc
      simp only [List.cons_append, applyStatusTransitions]
      by_cases hs : transitionsToUnread prev s = true
      · rw [if_pos hs, if_pos hs]
        exact ih _
      · rw [if_neg hs, if_neg hs]
        exact ih _

/-- The transition fold bumps the counter once per Active→Idle transition. -/
theorem applyStatusTransitions_counter (prev : List (String × SessionStatus))
    (l : List ClaudeSession) (u : List String) (o : List (String × Nat)) (c : Nat) :
    (applyStatusTransitions prev l (u, o, c)).2.2
      = c + (l.filter (transitionsToUnread prev)).length := by
  induction l generalizing u o c with
  | nil => simp [applyStatusTransitions]
  | cons s rest ih =>
      simp only [applyStatusTransitions]
      by_cases hs : transitionsToUnread prev s = true
      · rw [if_pos hs, ih, List.filter_cons_of_pos hs]
        simp only [List.length_cons]
        omega
      · rw [if_neg hs, ih, List.filter_cons_of_neg hs]

/-- The transition fold keeps every order value at or below the counter. -/
theorem applyStatusTransitions_bound (prev : List (String × SessionStatus))
    (l : List ClaudeSession) (u : List String) (o : List (String × Nat)) (c : Nat)
    (hb : ∀ k v, orderGet o k = some v → v ≤ c) :
    ∀ k v, orderGet (applyStatusTransitions prev l (u, o, c)).2.1 k = some v
      → v ≤ (applyStatusTransitions prev l (u, o, c)).2.2 := by
  induction l generalizing u o c with
  | nil =>
      intro k v h
      simp only [applyStatusTransitions] at h ⊢
      exact hb k v h
  | cons s rest ih =>
      simp only [applyStatusTransitions]
      by_cases hs : transitionsToUnread prev s = true
      · rw [if_pos hs]
        apply ih
        intro k v h
        by_cases hk : k = s.pane_id
        · subst hk
          rw [orderGet_insert_self] at h
          injection h with h
          omega
        · rw [orderGet_insert_ne _ _ _ _ hk] at h
          exact Nat.le_succ_of_le (hb k v h)
      · rw [if_neg hs]
        exact ih u o c hb

/-- The transition fold does not touch keys whose sessions do not transition. -/
theorem applyStatusTransitions_untouched (prev : List (String × SessionStatus))
    (l : List ClaudeSession) (u : List String) (o : List (String × Nat)) (c : Nat)
    (k : String) (hk : ∀ s2 ∈ l, transitionsToUnread prev s2 = true → s2.pane_id ≠ k) :
    orderGet (applyStatusTransitions prev l (u, o, c)).2.1 k = orderGet o k
    ∧ (k ∈ (applyStatusTransitions prev l (u, o, c)).1 ↔ k ∈ u) := by
  induction l generalizing u o c with
  | nil => exact ⟨rfl, Iff.rfl⟩
  | cons s rest ih =>
      simp only [applyStatusTransitions]
      by_cases hs : transitionsToUnread prev s = true
      · rw [if_pos hs]
        have hne : s.pane_id ≠ k := hk s (List.mem_cons_self s rest) hs
        obtain ⟨ho, hu⟩ := ih (setInsert u s.pane_id)
          (orderInsert o s.pane_id (c + 1)) (c + 1)
          (fun s2 hs2 => hk s2 (List.mem_cons_of_mem s hs2))
        refine ⟨?_, ?_⟩
        · rw [ho, orderGet_insert_ne _ _ _ _ (Ne.symm hne)]
        · rw [hu, mem_setInsert]
          constructor
          · rintro (rfl | hmem)
            · exact absurd rfl hne.symm
            · exact hmem
          · exact Or.inr
      · rw [if_neg hs]
        exact ih u o c (fun s2 hs2 => hk s2 (List.mem_cons_of_mem s hs2))

/-- Counter monotonicity of the transition fold. -/
theorem applyStatusTransitions_counter_le (prev : List (String × SessionStatus))
    (l : List ClaudeSession) (u : List String) (o : List (String × Nat)) (c : Nat) :
    c ≤ (applyStatusTransitions prev l (u, o, c)).2.2 := by
  rw [applyStatusTransitions_counter]
  omega

/-- Every value the transition loop assigns lies strictly above the starting
counter and at most the starting counter plus the number of transitions. -/
theorem foldAssigned_mem_bounds (prev : List (String × SessionStatus))
    (l : List ClaudeSession) (c : Nat) :
    ∀ v ∈ foldAssigned prev l c,
      c < v ∧ v ≤ c + (l.filter (transitionsToUnread prev)).length := by
  induction l generalizing c with
  | nil =>
      intro v hv
      simp [foldAssigned] at hv
  | cons s rest ih =>
      intro v hv
      simp only [foldAssigned] at hv
      by_cases hs : transitionsToUnread prev s = true
      · rw [if_pos hs] at hv
        rw [List.filter_cons_of_pos hs, List.length_cons]
        rcases List.mem_cons.mp hv with rfl | hv2
        · omega
        · have := ih (c + 1) v hv2
          omega
      · rw [if_neg hs] at hv
        rw [List.filter_cons_of_neg hs]
        exact ih c v hv

/-- The values assigned by the transition loop are strictly increasing in
assignment order. -/
theorem foldAssigned_pairwise (prev : List (String × SessionStatus))
    (l : List ClaudeSession) (c : Nat) :
    List.Pairwise (· < ·) (foldAssigned prev l c) := by
  induction l generalizing c with
  | nil => exact List.Pairwise.nil
  | cons s rest ih =>
      simp only [foldAssigned]
      by_cases hs : transitionsToUnread prev s = true
      · rw [if_pos hs]
        refine List.pairwise_cons.mpr ⟨?_, ih (c + 1)⟩
        intro v hv
        exact (foldAssigned_mem_bounds prev rest (c + 1) v hv).1
      · rw [if_neg hs]
        exact ih c

/-- The assigned-value list splits over list append, the second part starting
at the counter reached after the first. -/
theorem foldAssigned_append (prev : List (String × SessionStatus))
    (l1 l2 : List ClaudeSession) (c : Nat) :
    foldAssigned prev (l1 ++ l2) c
      = foldAssigned prev l1 c
        ++ foldAssigned prev l2 (c + (l1.filter (transitionsToUnread prev)).length) := by
  induction l1 generalizing c with
  | nil => simp [foldAssigned]
  | cons s rest ih =>
      simp only [List.cons_append, List.append_eq, foldAssigned]
      by_cases hs : transitionsToUnread prev s = true
      · rw [if_pos hs, if_pos hs, List.filter_cons_of_pos hs, ih (c + 1),
          List.length_cons, List.cons_append,
          show c + 1 + (rest.filter (transitionsToUnread prev)).length
            = c + ((rest.filter (transitionsToUnread prev)).length + 1) from by omega]
      · rw [if_neg hs, if_neg hs, List.filter_cons_of_neg hs, ih c]

/-- Every binding after the transition loop is either inherited from the
starting map or newly assigned in the window (counter, final counter]. -/
theorem orderGet_ast_window (prev : List (String × SessionStatus))
    (l : List ClaudeSession) (u : List String) (o : List (String × Nat)) (c : Nat) :
    ∀ k v, orderGet (applyStatusTransitions prev l (u, o, c)).2.1 k = some v →
      orderGet o k = some v
      ∨ (c < v ∧ v ≤ (applyStatusTransitions prev l (u, o, c)).2.2) := by
  induction l generalizing u o c with
  | nil =>
      intro k v h
      simp only [applyStatusTransitions] at h ⊢
      exact Or.inl h
  | cons s rest ih =>
      simp only [applyStatusTransitions]
      by_cases hs : transitionsToUnread prev s = true
      · rw [if_pos hs]
        intro k v h
        rcases ih _ _ _ k v h with hin | hwin
        · by_cases hk : k = s.pane_id
          · subst hk
            rw [orderGet_insert_self] at hin
            injection hin with hv
            subst hv
            refine Or.inr ⟨by omega, ?_⟩
            exact applyStatusTransitions_counter_le prev rest _ _ _
          · rw [orderGet_insert_ne _ _ _ _ hk] at hin
            exact Or.inl hin
        · exact Or.inr ⟨by omega, hwin.2⟩
      · rw [if_neg hs]
        intro k v h
        rcases ih _ _ _ k v h with hin | hwin
        · exact Or.inl hin
        · exact Or.inr hwin

/-- Filtering bindings down to a key set missing `k` removes every `k`
binding. -/
theorem orderGet_filter_not_memkeys (m : List (String × Nat)) (ids : List String)
    (k : String) (hk : k ∉ ids) :
    orderGet (m.filter (fun e => e.1 ∈ ids)) k = none := by
  induction m with
  | nil => rfl
  | cons a as ih =>
      by_cases hap : a.1 ∈ ids
      · rw [List.filter_cons_of_pos (by simpa using hap)]
        unfold orderGet
        rw [List.find?_cons_of_neg _ (by simp; intro hc; exact hk (hc ▸ hap))]
        exact ih
      · rw [List.filter_cons_of_neg (by simpa using hap)]
        exact ih

/-- Values assigned by one update lie strictly above the state's counter and
at most the updated state's counter. -/
theorem updateAssigned_bounds (st1 : AppModel) (u : DispatcherUpdate) :
    ∀ v ∈ updateAssigned st1 u,
      st1.unread_counter < v ∧ v ≤ (applyUpdate st1 u).unread_counter := by
  cases u with
  | snapshot sessions =>
      intro v hv
      have h := foldAssigned_mem_bounds st1.prev_status_map sessions
        st1.unread_counter v hv
      have hc : (applyUpdate st1 (DispatcherUpdate.snapshot sessions)).unread_counter
          = st1.unread_counter
            + (sessions.filter (transitionsToUnread st1.prev_status_map)).length := by
        show (applyStatusTransitions st1.prev_status_map sessions
          (st1.unread_pane_ids, st1.unread_order, st1.unread_counter)).2.2 = _
        rw [applyStatusTransitions_counter]
      rw [hc]
      exact h
  | kill t =>
      intro v hv
      simp [updateAssigned] at hv
  | create s =>
      intro v hv
      simp [updateAssigned] at hv
  | markRead p =>
      intro v hv
      simp [updateAssigned] at hv

/-- No dispatcher update ever decreases the counter. -/
theorem applyUpdate_counter_le (st1 : AppModel) (u : DispatcherUpdate) :
    st1.unread_counter ≤ (applyUpdate st1 u).unread_counter := by
  cases u with
  | snapshot sessions =>
      show st1.unread_counter ≤ (applyStatusTransitions st1.prev_status_map sessions
        (st1.unread_pane_ids, st1.unread_order, st1.unread_counter)).2.2
      exact applyStatusTransitions_counter_le st1.prev_status_map sessions _ _ _
  | kill t =>
      show st1.unread_counter ≤ (killPane st1 t).unread_counter
      unfold killPane
      cases hfind : st1.sessions.find? (fun s => s.pane_target = t) <;> simp [hfind]
  | create s => exact Nat.le.refl
  | markRead p => exact Nat.le.refl

/-- The counter is monotone over any run of updates. -/
theorem applyUpdates_counter_le (st0 : AppModel) (us : List DispatcherUpdate) :
    st0.unread_counter ≤ (applyUpdates st0 us).unread_counter := by
  induction us generalizing st0 with
  | nil => exact Nat.le.refl
  | cons u us ih =>
      exact Nat.le_trans (applyUpdate_counter_le st0 u) (ih (applyUpdate st0 u))

/-- Values assigned over a run lie strictly above the starting counter and at
most the final counter. -/
theorem runAssigned_bounds (st0 : AppModel) (us : List DispatcherUpdate) :
    ∀ v ∈ runAssigned st0 us,
      st0.unread_counter < v ∧ v ≤ (applyUpdates st0 us).unread_counter := by
  induction us generalizing st0 with
  | nil =>
      intro v hv
      simp [runAssigned] at hv
  | cons u us ih =>
      intro v hv
      simp only [runAssigned] at hv
      rcases List.mem_append.mp hv with h1 | h2
      · have hb := updateAssigned_bounds st0 u v h1
        exact ⟨hb.1, Nat.le_trans hb.2 (applyUpdates_counter_le (applyUpdate st0 u) us)⟩
      · have hb := ih (applyUpdate st0 u) v h2
        exact ⟨Nat.lt_of_le_of_lt (applyUpdate_counter_le st0 u) hb.1, hb.2⟩

/-- One update's assigned values are strictly increasing. -/
theorem updateAssigned_pairwise (st1 : AppModel) (u : DispatcherUpdate) :
    List.Pairwise (· < ·) (updateAssigned st1 u) := by
  cases u with
  | snapshot sessions => exact foldAssigned_pairwise st1.prev_status_map sessions _
  | kill t => exact List.Pairwise.nil
  | create s => exact List.Pairwise.nil
  | markRead p => exact List.Pairwise.nil

/-- Every order value assigned over a run is strictly greater than every
value assigned before it. -/
theorem runAssigned_pairwise (st0 : AppModel) (us : List DispatcherUpdate) :
    List.Pairwise (· < ·) (runAssigned st0 us) := by
  induction us generalizing st0 with
  | nil => exact List.Pairwise.nil
  | cons u us ih =>
      simp only [runAssigned]
      rw [List.pairwise_append]
      refine ⟨updateAssigned_pairwise st0 u, ih (applyUpdate st0 u), ?_⟩
      intro x hx y hy
      have hxb := updateAssigned_bounds st0 u x hx
      have hyb := runAssigned_bounds (applyUpdate st0 u) us y hy
      omega

/-- Assigned values split over run append. -/
theorem runAssigned_append (st0 : AppModel) (us1 us2 : List DispatcherUpdate) :
    runAssigned st0 (us1 ++ us2)
      = runAssigned st0 us1 ++ runAssigned (applyUpdates st0 us1) us2 := by
  induction us1 generalizing st0 with
  | nil => rfl
  | cons u us ih =>
      simp only [List.cons_append, List.append_eq, runAssigned,
        ih (applyUpdate st0 u), List.append_assoc]
      rfl

/-- Two Active→Idle transitions in the same snapshot, in list order, receive
strictly increasing order values. -/
theorem applyStatusTransitions_pair (prev : List (String × SessionStatus))
    (l1 l2a l2b : List ClaudeSession) (s s2 : ClaudeSession)
    (u : List String) (o : List (String × Nat)) (c : Nat)
    (hs : transitionsToUnread prev s = true)
    (hs2 : transitionsToUnread prev s2 = true)
    (hsa : s.pane_id ∉ l2a.map ClaudeSession.pane_id)
    (hss2 : s.pane_id ≠ s2.pane_id)
    (hsb : s.pane_id ∉ l2b.map ClaudeSession.pane_id)
    (hs2b : s2.pane_id ∉ l2b.map ClaudeSession.pane_id) :
    ∃ v v2,
      orderGet (applyStatusTransitions prev (l1 ++ s :: (l2a ++ s2 :: l2b))
          (u, o, c)).2.1 s.pane_id = some v
      ∧ orderGet (applyStatusTransitions prev (l1 ++ s :: (l2a ++ s2 :: l2b))
          (u, o, c)).2.1 s2.pane_id = some v2
      ∧ v < v2 := by
  rw [applyStatusTransitions_append]
  rcases hacc1 : applyStatusTransitions prev l1 (u, o, c) with ⟨u1, o1, c1⟩
  simp only [applyStatusTransitions]
  rw [if_pos hs]
  rw [applyStatusTransitions_append]
  rcases hacc2 : applyStatusTransitions prev l2a
      (setInsert u1 s.pane_id, orderInsert o1 s.pane_id (c1 + 1), c1 + 1)
    with ⟨u2, o2, c2⟩
  have hc2 : c1 + 1 ≤ c2 := by
    have h := applyStatusTransitions_counter_le prev l2a
      (setInsert u1 s.pane_id) (orderInsert o1 s.pane_id (c1 + 1)) (c1 + 1)
    rw [hacc2] at h
    exact h
  have ho2s : orderGet o2 s.pane_id = some (c1 + 1) := by
    have h := (applyStatusTransitions_untouched prev l2a
      (setInsert u1 s.pane_id) (orderInsert o1 s.pane_id (c1 + 1)) (c1 + 1)
      s.pane_id
      (fun s3 h3 _ heq => hsa (heq ▸ List.mem_map_of_mem ClaudeSession.pane_id h3))).1
    rw [hacc2] at h
    rw [show orderGet o2 s.pane_id
        = orderGet (u2, o2, c2).2.1 s.pane_id from rfl, h, orderGet_insert_self]
  simp only [applyStatusTransitions]
  rw [if_pos hs2]
  obtain ⟨hosf, -⟩ := applyStatusTransitions_untouched prev l2b
    (setInsert u2 s2.pane_id) (orderInsert o2 s2.pane_id (c2 + 1)) (c2 + 1)
    s.pane_id
    (fun s3 h3 _ heq => hsb (heq ▸ List.mem_map_of_mem ClaudeSession.pane_id h3))
  obtain ⟨hos2f, -⟩ := applyStatusTransitions_untouched prev l2b
    (setInsert u2 s2.pane_id) (orderInsert o2 s2.pane_id (c2 + 1)) (c2 + 1)
    s2.pane_id
    (fun s3 h3 _ heq => hs2b (heq ▸ List.mem_map_of_mem ClaudeSession.pane_id h3))
  refine ⟨c1 + 1, c2 + 1, ?_, ?_, by omega⟩
  · rw [hosf, orderGet_insert_ne _ _ _ _ hss2, ho2s]
  · rw [hos2f, orderGet_insert_self]

/-- Processing a transitioning session inserts its pane id with a fresh order
value strictly above every previously assigned value, and later sessions of
the snapshot (distinct pane ids) leave that binding alone. -/
theorem applyStatusTransitions_inserts (prev : List (String × SessionStatus))
    (l1 l2 : List ClaudeSession) (s : ClaudeSession)
    (u : List String) (o : List (String × Nat)) (c : Nat)
    (hs : transitionsToUnread prev s = true)
    (hn2 : s.pane_id ∉ l2.map ClaudeSession.pane_id)
    (hb : ∀ k v, orderGet o k = some v → v ≤ c) :
    s.pane_id ∈ (applyStatusTransitions prev (l1 ++ s :: l2) (u, o, c)).1
    ∧ ∃ v, orderGet (applyStatusTransitions prev (l1 ++ s :: l2) (u, o, c)).2.1 s.pane_id
          = some v
        ∧ c < v
        ∧ v = (applyStatusTransitions prev l1 (u, o, c)).2.2 + 1
        ∧ (∀ k w, orderGet o k = some w → w < v)
        ∧ v ≤ (applyStatusTransitions prev (l1 ++ s :: l2) (u, o, c)).2.2 := by
  rw [applyStatusTransitions_append]
  rcases hacc1 : applyStatusTransitions prev l1 (u, o, c) with ⟨u1, o1, c1⟩
  have hc1 : c ≤ c1 := by
    have h := applyStatusTransitions_counter_le prev l1 u o c
    rw [hacc1] at h
    exact h
  have hb1 : ∀ k v, orderGet o1 k = some v → v ≤ c1 := by
    intro k v h
    have hbb := applyStatusTransitions_bound prev l1 u o c hb k v
    rw [hacc1] at hbb
    exact hbb h
  simp only [applyStatusTransitions]
  rw [if_pos hs]
  have hk2 : ∀ s2 ∈ l2, transitionsToUnread prev s2 = true
      → s2.pane_id ≠ s.pane_id := by
    intro s2 hs2 _ heq
    exact hn2 (heq ▸ List.mem_map_of_mem ClaudeSession.pane_id hs2)
  obtain ⟨ho, hu⟩ := applyStatusTransitions_untouched prev l2
    (setInsert u1 s.pane_id) (orderInsert o1 s.pane_id (c1 + 1)) (c1 + 1)
    s.pane_id hk2
  refine ⟨?_, c1 + 1, ?_, ?_, ?_, ?_, ?_⟩
  · rw [hu, mem_setInsert]
    exact Or.inl rfl
  · rw [ho, orderGet_insert_self]
  · omega
  · rfl
  · intro k w hw
    have := hb k w hw
    omega
  · exact applyStatusTransitions_counter_le prev l2 _ _ _

/-- C2: on a snapshot update, a pane whose recorded previous status is Active
and whose new status is Idle is inserted into the unread set with an order
value strictly greater than every order value assigned before it — strictly
above every standing binding and the running counter, hence above every value
assigned and possibly removed earlier (bindings only ever arise in windows
bounded by the monotone counter), and below any insertion made later in the
same snapshot; the full sequence of values assigned over any run of updates
ending in this snapshot is strictly increasing, and the counter is bumped
exactly once per transition.  A pane observed Idle whose previous status was
already Idle is not reinserted and its order binding is unchanged. -/
theorem snapshot_unread_insertion (st : AppModel) (sessions : List ClaudeSession)
    (s : ClaudeSession) :
    ((sessions.map ClaudeSession.pane_id).Nodup →
      (∀ k v, orderGet st.unread_order k = some v → v ≤ st.unread_counter) →
      s ∈ sessions →
      statusGet st.prev_status_map s.pane_id = some SessionStatus.active →
      s.status = SessionStatus.idle →
      s.pane_id ∈ (sessionsUpdated st sessions).unread_pane_ids
      ∧ (∃ v, orderGet (sessionsUpdated st sessions).unread_order s.pane_id = some v
          ∧ st.unread_counter < v
          ∧ v ≤ (sessionsUpdated st sessions).unread_counter
          ∧ v ∈ updateAssigned st (DispatcherUpdate.snapshot sessions)
          ∧ (∀ k w, orderGet st.unread_order k = some w → w < v))
      ∧ (sessionsUpdated st sessions).unread_counter
          = st.unread_counter
            + (sessions.filter (transitionsToUnread st.prev_status_map)).length)
    ∧ ((sessions.map ClaudeSession.pane_id).Nodup →
      ∀ l1 l2a l2b s2, sessions = l1 ++ s :: (l2a ++ s2 :: l2b) →
      statusGet st.prev_status_map s.pane_id = some SessionStatus.active →
      s.status = SessionStatus.idle →
      statusGet st.prev_status_map s2.pane_id = some SessionStatus.active →
      s2.status = SessionStatus.idle →
      ∃ v v2, orderGet (sessionsUpdated st sessions).unread_order s.pane_id = some v
        ∧ orderGet (sessionsUpdated st sessions).unread_order s2.pane_id = some v2
        ∧ v < v2)
    ∧ (∀ k v, orderGet (sessionsUpdated st sessions).unread_order k = some v →
        orderGet st.unread_order k = some v
        ∨ (st.unread_counter < v ∧ v ≤ (sessionsUpdated st sessions).unread_counter))
    ∧ (∀ st0 us, applyUpdates st0 us = st →
        List.Pairwise (· < ·)
          (runAssigned st0 (us ++ [DispatcherUpdate.snapshot sessions])))
    ∧ ((sessions.map ClaudeSession.pane_id).Nodup →
      s ∈ sessions →
      statusGet st.prev_status_map s.pane_id = some SessionStatus.idle →
      s.status = SessionStatus.idle →
      orderGet (sessionsUpdated st sessions).unread_order s.pane_id
          = orderGet st.unread_order s.pane_id
      ∧ (s.pane_id ∈ (sessionsUpdated st sessions).unread_pane_ids
          ↔ s.pane_id ∈ st.unread_pane_ids)) := by
  have hU : ∀ sess : List ClaudeSession, (sessionsUpdated st sess).unread_pane_ids
      = (applyStatusTransitions st.prev_status_map sess
          (st.unread_pane_ids, st.unread_order, st.unread_counter)).1.filter
        (fun id => id ∈ sess.map ClaudeSession.pane_id) := fun _ => rfl
  have hO : ∀ sess : List ClaudeSession, (sessionsUpdated st sess).unread_order
      = (applyStatusTransitions st.prev_status_map sess
          (st.unread_pane_ids, st.unread_order, st.unread_counter)).2.1.filter
        (fun e => e.1 ∈ sess.map ClaudeSession.pane_id) := fun _ => rfl
  have hC : ∀ sess : List ClaudeSession, (sessionsUpdated st sess).unread_counter
      = (applyStatusTransitions st.prev_status_map sess
          (st.unread_pane_ids, st.unread_order, st.unread_counter)).2.2 := fun _ => rfl
  refine ⟨?_, ?_, ?_, ?_, ?_⟩
  · intro hnodup hb hmem hprev hidle
    have hpidmem : s.pane_id ∈ sessions.map ClaudeSession.pane_id :=
      List.mem_map_of_mem ClaudeSession.pane_id hmem
    have hs : transitionsToUnread st.prev_status_map s = true := by
      unfold transitionsToUnread
      exact decide_eq_true ⟨hprev, hidle⟩
    obtain ⟨l1, l2, hsplit⟩ := List.append_of_mem hmem
    have hn2 : s.pane_id ∉ l2.map ClaudeSession.pane_id := by
      rw [hsplit, List.map_append, List.map_cons, List.nodup_append] at hnodup
      exact (List.nodup_cons.mp hnodup.2.1).1
    have hins := applyStatusTransitions_inserts st.prev_status_map l1 l2 s
      st.unread_pane_ids st.unread_order st.unread_counter hs hn2 hb
    rw [← hsplit] at hins
    obtain ⟨hmemu, v, hov, hclt, hveq, hvgt, hvle⟩ := hins
    refine ⟨?_, ⟨v, ?_, hclt, ?_, ?_, hvgt⟩, ?_⟩
    · rw [hU]
      rw [List.mem_filter]
      exact ⟨hmemu, decide_eq_true hpidmem⟩
    · rw [hO, orderGet_filter_memkeys _ _ _ hpidmem]
      exact hov
    · rw [hC]
      exact hvle
    · show v ∈ foldAssigned st.prev_status_map sessions st.unread_counter
      rw [hsplit, foldAssigned_append]
      apply List.mem_append_right
      simp only [foldAssigned]
      rw [if_pos hs]
      rw [hveq, applyStatusTransitions_counter st.prev_status_map l1
        st.unread_pane_ids st.unread_order st.unread_counter]
      exact List.mem_cons_self _ _
    · rw [hC]
      exact applyStatusTransitions_counter st.prev_status_map sessions
        st.unread_pane_ids st.unread_order st.unread_counter
  · intro hnodup l1 l2a l2b s2 hsplit hprev hidle hprev2 hidle2
    have hs : transitionsToUnread st.prev_status_map s = true := by
      unfold transitionsToUnread
      exact decide_eq_true ⟨hprev, hidle⟩
    have hs2 : transitionsToUnread st.prev_status_map s2 = true := by
      unfold transitionsToUnread
      exact decide_eq_true ⟨hprev2, hidle2⟩
    have hsmem : s ∈ sessions := by
      rw [hsplit]
      exact List.mem_append_right l1 (List.mem_cons_self s _)
    have hs2mem : s2 ∈ sessions := by
      rw [hsplit]
      refine List.mem_append_right l1 (List.mem_cons_of_mem s ?_)
      exact List.mem_append_right l2a (List.mem_cons_self s2 _)
    have hnodup2 := hnodup
    rw [hsplit, List.map_append, List.map_cons, List.map_append, List.map_cons]
      at hnodup2
    have hmid := (List.nodup_append.mp hnodup2).2.1
    obtain ⟨hsnotin, hrest⟩ := List.nodup_cons.mp hmid
    have hsa : s.pane_id ∉ l2a.map ClaudeSession.pane_id :=
      fun h => hsnotin (List.mem_append_left _ h)
    have hss2 : s.pane_id ≠ s2.pane_id := by
      intro h
      exact hsnotin (List.mem_append_right _ (h ▸ List.mem_cons_self s2.pane_id _))
    have hsb : s.pane_id ∉ l2b.map ClaudeSession.pane_id :=
      fun h => hsnotin (List.mem_append_right _ (List.mem_cons_of_mem _ h))
    have hs2b : s2.pane_id ∉ l2b.map ClaudeSession.pane_id :=
      (List.nodup_cons.mp (List.nodup_append.mp hrest).2.1).1
    have hpair := applyStatusTransitions_pair st.prev_status_map l1 l2a l2b s s2
      st.unread_pane_ids st.unread_order st.unread_counter hs hs2 hsa hss2 hsb hs2b
    rw [← hsplit] at hpair
    obtain ⟨v, v2, hv, hv2, hlt⟩ := hpair
    refine ⟨v, v2, ?_, ?_, hlt⟩
    · rw [hO, orderGet_filter_memkeys _ _ _
        (List.mem_map_of_mem ClaudeSession.pane_id hsmem)]
      exact hv
    · rw [hO, orderGet_filter_memkeys _ _ _
        (List.mem_map_of_mem ClaudeSession.pane_id hs2mem)]
      exact hv2
  · intro k v h
    rw [hO] at h
    by_cases hkmem : k ∈ sessions.map ClaudeSession.pane_id
    · rw [orderGet_filter_memkeys _ _ _ hkmem] at h
      rcases orderGet_ast_window st.prev_status_map sessions st.unread_pane_ids
        st.unread_order st.unread_counter k v h with hin | hwin
      · exact Or.inl hin
      · refine Or.inr ⟨hwin.1, ?_⟩
        rw [hC]
        exact hwin.2
    · rw [orderGet_filter_not_memkeys _ _ _ hkmem] at h
      exact Option.noConfusion h
  · intro st0 us hst
    rw [runAssigned_append, hst, List.pairwise_append]
    refine ⟨runAssigned_pairwise st0 us, ?_, ?_⟩
    · show List.Pairwise (· < ·)
        (runAssigned st [DispatcherUpdate.snapshot sessions])
      simp only [runAssigned, List.append_nil]
      exact updateAssigned_pairwise st (DispatcherUpdate.snapshot sessions)
    · intro x hx y hy
      have hxb := (runAssigned_bounds st0 us x hx).2
      rw [hst] at hxb
      have hymem : y ∈ updateAssigned st (DispatcherUpdate.snapshot sessions) := by
        simpa [runAssigned] using hy
      have hyb := (updateAssigned_bounds st (DispatcherUpdate.snapshot sessions)
        y hymem).1
      omega
  · intro hnodup hmem hprev hidle
    have hpidmem : s.pane_id ∈ sessions.map ClaudeSession.pane_id :=
      List.mem_map_of_mem ClaudeSession.pane_id hmem
    have hntr : transitionsToUnread st.prev_status_map s = false := by
      unfold transitionsToUnread
      apply decide_eq_false
      rintro ⟨ha, -⟩
      rw [hprev] at ha
      injection ha with ha
      exact SessionStatus.noConfusion ha
    have hk : ∀ s2 ∈ sessions, transitionsToUnread st.prev_status_map s2 = true
        → s2.pane_id ≠ s.pane_id := by
      intro s2 hs2 htr heq
      have hss : s2 = s := List.inj_on_of_nodup_map hnodup hs2 hmem heq
      rw [hss, hntr] at htr
      exact Bool.noConfusion htr
    obtain ⟨ho, hu⟩ := applyStatusTransitions_untouched st.prev_status_map sessions
      st.unread_pane_ids st.unread_order st.unread_counter s.pane_id hk
    constructor
    · rw [hO, orderGet_filter_memkeys _ _ _ hpidmem]
      exact ho
    · rw [hU]
      rw [List.mem_filter]
      constructor
      · rintro ⟨h1, -⟩
        exact hu.mp h1
      · intro h1
        exact ⟨hu.mpr h1, decide_eq_true hpidmem⟩

/-- Witness for C2: the concrete Active→Idle transition marks pane A unread
and bumps the counter exactly once; with panes A and B both transitioning in
one snapshot, A's order value is strictly below B's. -/
theorem snapshot_unread_insertion_witness :
    (exSessAIdle.pane_id ∈ (sessionsUpdated exStForSnap [exSessAIdle]).unread_pane_ids
    ∧ (sessionsUpdated exStForSnap [exSessAIdle]).unread_counter
        = exStForSnap.unread_counter
          + ([exSessAIdle].filter
              (transitionsToUnread exStForSnap.prev_status_map)).length)
    ∧ (∃ v v2, orderGet (sessionsUpdated exStTwo [exSessAIdle, exSessB]).unread_order
          exSessAIdle.pane_id = some v
        ∧ orderGet (sessionsUpdated exStTwo [exSessAIdle, exSessB]).unread_order
            exSessB.pane_id = some v2
        ∧ v < v2) := by
  constructor
  · have h := (snapshot_unread_insertion exStForSnap [exSessAIdle] exSessAIdle).1
      (by decide) (fun k v hkv => Option.noConfusion hkv) (by decide) (by decide)
      (by decide)
    exact ⟨h.1, h.2.2⟩
  · exact (snapshot_unread_insertion exStTwo [exSessAIdle, exSessB] exSessAIdle).2.1
      (by decide) [] [] [] exSessB rfl (by decide) (by decide) (by decide) (by decide)

end AgentDash
